import Mathlib

/-!
Verification development for the ticketwatcher patch pipeline
(src/ticketwatcher/handlers.py and src/ticketwatcher/agent_llm.py).

The Python code is shallowly embedded: pure functions over strings become
Lean functions over `String` / `List String`; Python line splitting
(`str.splitlines`) is modelled for newline-separated text (the `"\n"`
separator, which is the only separator occurring in the unified-diff wire
format that the engine handles); a Python `IndexError` is modelled by an
`Option`/`Except` result.  All environment-driven configuration
(`ALLOWED_PATHS`, `MAX_FILES`, `MAX_LINES`, `GITHUB_WORKSPACE`,
`GITHUB_REPOSITORY`, the working directory) is passed explicitly as
parameters, since the code reads it once from the environment.
-/

namespace TicketWatcher

/-- Python whitespace class `\s` (ASCII range), used by `str.strip()` and
the regexes in the source. -/
def isWs (c : Char) : Bool :=
  c = ' ' ∨ c = '\t' ∨ c = '\n' ∨ c = '\r' ∨ c = Char.ofNat 11 ∨ c = Char.ofNat 12

/-- Python `str.strip()` (no argument): remove leading and trailing whitespace. -/
def pyStrip (s : String) : String :=
  String.mk (((s.toList.dropWhile isWs).reverse.dropWhile isWs).reverse)

/-- Python `str.startswith(pre)`. -/
def strStarts (s pre : String) : Bool :=
  pre.toList.isPrefixOf s.toList

/-- Python `str.endswith(suf)`. -/
def strEnds (s suf : String) : Bool :=
  suf.toList.reverse.isPrefixOf s.toList.reverse

/-- Python slicing `s[n:]` (by code points). -/
def strDrop (s : String) (n : Nat) : String :=
  String.mk (s.toList.drop n)

/-- Python slicing `s[:-n]` for `n ≤ len s` (by code points). -/
def strDropRight (s : String) (n : Nat) : String :=
  String.mk (s.toList.take (s.toList.length - n))

/-- Python slicing `s[:n]` (by code points). -/
def strTake (s : String) (n : Nat) : String :=
  String.mk (s.toList.take n)

/-- Substring occurrence in a character list (leftmost scan). -/
def isInfixChars (sub : List Char) : List Char → Bool
  | [] => sub.isPrefixOf []
  | c :: cs => sub.isPrefixOf (c :: cs) || isInfixChars sub cs

/-- Substring test, Python `sub in s`. -/
def containsStr (s sub : String) : Bool :=
  isInfixChars sub.toList s.toList

/-- Split a character list on a separator character, keeping empty fields
(the semantics of Python `str.split(sep)` for a one-character separator). -/
def splitChars (sep : Char) : List Char → List (List Char)
  | [] => [[]]
  | c :: cs =>
    if c = sep then [] :: splitChars sep cs
    else
      match splitChars sep cs with
      | [] => [[c]]
      | g :: gs => (c :: g) :: gs

/-- Python `str.splitlines()` on newline-separated text: split on `"\n"`,
with no empty final field when the text ends with a newline, and `[]` for
the empty string. -/
def splitlinesPy (s : String) : List String :=
  let parts := (splitChars '\n' s.toList).map String.mk
  if parts.getLast? = some "" then parts.dropLast else parts

/-- Python `"\n".join(lines)`. -/
def joinLines : List String → String
  | [] => ""
  | [l] => l
  | l :: ls => l ++ "\n" ++ joinLines ls

/-- Join with an arbitrary separator (Python `sep.join`). -/
def joinWith (sep : String) : List String → String
  | [] => ""
  | [l] => l
  | l :: ls => l ++ sep ++ joinWith sep ls

/-- Numeric value of a digit run (`int(...)` on a regex digit group). -/
def digitsToNat (ds : List Char) : Nat :=
  ds.foldl (fun a c => a * 10 + (c.toNat - 48)) 0

/-! ## DiffEngine: parsing (`_parse_unified_diff`, handlers.py lines 262-297) -/

/-- One hunk of a unified diff, exactly the dict
`{old_start, old_len, new_start, new_len, lines}` built by
`_parse_unified_diff`; `lines` keeps the body lines verbatim, leading
marker character included. -/
structure Hunk where
  old_start : Nat
  old_len : Nat
  new_start : Nat
  new_len : Nat
  lines : List String
  deriving DecidableEq, Repr

/-- Parse `old_start[,old_len]` (resp. the new pair) from the hunk header:
the source regex fragment `(\d+),?(\d+)?`, with a missing length
defaulting to `1` (`int(m.group(2) or "1")`).  Returns the two numbers and
the unconsumed characters. -/
def parsePairNums (cs : List Char) : Option (Nat × Nat × List Char) :=
  let d1 := cs.takeWhile Char.isDigit
  let r1 := cs.dropWhile Char.isDigit
  if d1 = [] then none
  else
    let (d2, r2) :=
      match r1 with
      | ',' :: rest => (rest.takeWhile Char.isDigit, rest.dropWhile Char.isDigit)
      | _ => ([], r1)
    some (digitsToNat d1, (if d2 = [] then 1 else digitsToNat d2), r2)

/-- The anchored hunk-header regex `_HUNK_RE`:
`^@@ -(\d+),?(\d+)? \+(\d+),?(\d+)? @@` applied with `re.match` (so only a
prefix of the line must match; trailing text after the closing `@@` is
ignored). -/
def matchHunkHeader (line : String) : Option (Nat × Nat × Nat × Nat) :=
  match line.toList with
  | '@' :: '@' :: ' ' :: '-' :: rest =>
    match parsePairNums rest with
    | none => none
    | some (os, ol, r1) =>
      match r1 with
      | ' ' :: '+' :: r2 =>
        match parsePairNums r2 with
        | none => none
        | some (ns, nl, r3) =>
          match r3 with
          | ' ' :: '@' :: '@' :: _ => some (os, ol, ns, nl)
          | _ => none
      | _ => none
  | _ => none

/-- The parse result: an insertion-ordered association list standing for the
Python dict `{path: [hunk, ...]}` (`dict` preserves insertion order). -/
abbrev ParsedDiff := List (String × List Hunk)

/-- `files.setdefault(path, [])`. -/
def setdefaultPath (files : ParsedDiff) (p : String) : ParsedDiff :=
  if files.any (fun e => e.1 = p) then files else files ++ [(p, [])]

/-- `files[path].append(hunk)`. -/
def appendHunk (files : ParsedDiff) (p : String) (h : Hunk) : ParsedDiff :=
  files.map (fun e => if e.1 = p then (e.1, e.2 ++ [h]) else e)

/-- Append a body line to the hunk currently being collected (the Python
`cur_hunk["lines"].append(line)`: `cur_hunk` is the most recently appended
hunk of the current file). -/
def appendBodyLine (files : ParsedDiff) (curFile : Option String) (line : String) : ParsedDiff :=
  match curFile with
  | none => files
  | some f =>
    files.map (fun e =>
      if e.1 = f then
        (e.1, match e.2.getLast? with
              | none => e.2
              | some h => e.2.dropLast ++ [{ h with lines := h.lines ++ [line] }])
      else e)

/-- The body of `_parse_unified_diff`'s scanning loop, one input line per
step.  `inHunk` records whether the previous line belonged to an open hunk
body (the Python inner `while` that collects lines until the next `@@` or
`--- a/` line); a body line is then appended to the last hunk of the
current file.  A hunk header is only honoured when `cur_file` is truthy
(a non-empty current path), exactly as `if m and cur_file:` does. -/
def parseGo (files : ParsedDiff) (curFile : Option String) (inHunk : Bool) :
    List String → ParsedDiff
  | [] => files
  | line :: rest =>
    if inHunk ∧ ¬ strStarts line "@@" ∧ ¬ strStarts line "--- a/" then
      parseGo (appendBodyLine files curFile line) curFile true rest
    else
      if strStarts line "--- a/" ∧ (rest.head?.map (fun n => strStarts n "+++ b/")).getD false then
        match rest with
        | next :: rest2 =>
          parseGo (setdefaultPath files (strDrop next 6)) (some (strDrop next 6)) false rest2
        | [] => files
      else
        match matchHunkHeader line, curFile with
        | some (os, ol, ns, nl), some f =>
          if f = "" then parseGo files curFile false rest
          else parseGo (appendHunk files f ⟨os, ol, ns, nl, []⟩) curFile true rest
        | _, _ => parseGo files curFile false rest

/-- `_parse_unified_diff(diff_text)` (handlers.py lines 262-297). -/
def parseUnifiedDiff (diffText : String) : ParsedDiff :=
  parseGo [] none false (splitlinesPy diffText)

/-- Dict lookup `parsed[path]` on the parse result. -/
def lookupDiff (d : ParsedDiff) (p : String) : Option (List Hunk) :=
  (d.find? (fun e => e.1 = p)).map (fun e => e.2)

/-! ## DiffEngine: application (`_apply_hunks_to_text`, handlers.py lines 300-348) -/

/-- The copy loop `while cursor < old_start: dst.append(src[cursor - 1]); cursor += 1`.
`src[cursor - 1]` raises `IndexError` when `cursor - 1` is out of range,
modelled by `none`; on success it returns the copied lines and the final
cursor. -/
def copyUpTo (src : List String) (cursor stop : Nat) : Option (List String × Nat) :=
  if _h : cursor < stop then
    (src.get? (cursor - 1)).bind (fun l =>
      (copyUpTo src (cursor + 1) stop).map (fun r => (l :: r.1, r.2)))
  else some ([], cursor)
termination_by stop - cursor

/-- The per-hunk loop over `h["lines"]`: a line starting with a space (or
with any unrecognised marker, the final `else`) copies the original line at
`src_cursor` when that line exists and always advances; a `-` line only
advances; a `+` line emits its text (`ln[1:]`) without advancing.  Returns
the emitted lines and the final source cursor. -/
def procOps (src : List String) : List String → Nat → List String × Nat
  | [], c => ([], c)
  | ln :: rest, c =>
    if strStarts ln " " then
      let emitted := if c ≤ src.length then [(src.get? (c - 1)).getD ""] else []
      let r := procOps src rest (c + 1)
      (emitted ++ r.1, r.2)
    else if strStarts ln "-" then
      procOps src rest (c + 1)
    else if strStarts ln "+" then
      let r := procOps src rest c
      (strDrop ln 1 :: r.1, r.2)
    else
      let emitted := if c ≤ src.length then [(src.get? (c - 1)).getD ""] else []
      let r := procOps src rest (c + 1)
      (emitted ++ r.1, r.2)

/-- The hunk loop of `_apply_hunks_to_text` plus the trailing
`while cursor <= len(src)` copy; `none` models an uncaught `IndexError`
from the pre-hunk copy loop. -/
def applyHunksGo (src : List String) : Nat → List Hunk → Option (List String)
  | cursor, [] => some (src.drop (cursor - 1))
  | cursor, h :: hs =>
    (copyUpTo src cursor h.old_start).bind (fun pre =>
      let r := procOps src h.lines pre.2
      (applyHunksGo src r.2 hs).map (fun rest => pre.1 ++ r.1 ++ rest))

/-- `_apply_hunks_to_text(orig_text, hunks)` (handlers.py lines 300-348):
split the original into lines, start the 1-based cursor at 1, process the
hunks, copy the remainder, and join with newlines.  `none` models the
`IndexError` the Python code raises when a hunk's `old_start` points past
the end of the original plus one. -/
def applyHunksToText (origText : String) (hunks : List Hunk) : Option String :=
  (applyHunksGo (splitlinesPy origText) 1 hunks).map joinLines

/-! ## Reference semantics used to state the claims

`refOps`/`refApply` formalise what it means for a hunk list to *correctly
describe* the change from one text to another: context and deletion lines
must match the original text at the cursor, insert lines are emitted, the
pre-hunk gap is copied verbatim, and the header lengths agree with the op
counts.  These definitions follow the spec's description of a correct
unified diff and are compared against the engine's own applier. -/

/-- Checking interpretation of a hunk body: ` ` lines must equal the
original line at the (1-based) cursor and are emitted, `-` lines must
equal the original line and are skipped, `+` lines are emitted; anything
else is not part of a correct diff. -/
def refOps (src : List String) : Nat → List String → Option (List String × Nat)
  | c, [] => some ([], c)
  | c, ln :: rest =>
    if strStarts ln " " then
      (src.get? (c - 1)).bind (fun t =>
        if strDrop ln 1 = t then
          (refOps src (c + 1) rest).map (fun r => (t :: r.1, r.2))
        else none)
    else if strStarts ln "-" then
      (src.get? (c - 1)).bind (fun t =>
        if strDrop ln 1 = t then refOps src (c + 1) rest else none)
    else if strStarts ln "+" then
      (refOps src c rest).map (fun r => (strDrop ln 1 :: r.1, r.2))
    else none

/-- Number of original lines a correct hunk body consumes (` ` and `-` lines). -/
def countOld (lines : List String) : Nat :=
  lines.countP (fun ln => strStarts ln " " ∨ strStarts ln "-")

/-- Number of output lines a correct hunk body produces (` ` and `+` lines). -/
def countNew (lines : List String) : Nat :=
  lines.countP (fun ln => strStarts ln " " ∨ strStarts ln "+")

/-- Checking application of a hunk list to the original lines: each hunk
must start at or after the cursor and anchor inside the original (at most
one line past its end), its body must match per `refOps`, and its header
lengths must count its ops.  Any failure means the hunk list does not
correctly describe a change of `src`. -/
def refApply (src : List String) : Nat → List Hunk → Option (List String)
  | c, [] => some (src.drop (c - 1))
  | c, h :: hs =>
    if c ≤ h.old_start ∧ 1 ≤ h.old_start ∧ h.old_start ≤ src.length + 1 then
      (refOps src h.old_start h.lines).bind (fun p =>
        if h.old_len = countOld h.lines ∧ h.new_len = countNew h.lines then
          (refApply src p.2 hs).map (fun rest =>
            (src.drop (c - 1)).take (h.old_start - c) ++ p.1 ++ rest)
        else none)
    else none

/-- A hunk list correctly describes the change from text `A` to text `B`
when the checking application of the hunks to `A`'s lines succeeds and the
resulting lines joined by newlines are exactly `B`. -/
def correctlyDescribes (A B : String) (hunks : List Hunk) : Prop :=
  (refApply (splitlinesPy A) 1 hunks).map joinLines = some B

/-! ## The spec's single-pass apply algorithm (for claim C4) -/

/-- The data model's `LineOp`: `Context`, `Delete` or `Insert`, tagged by
the leading character of the diff body line (any unrecognised leading
character is treated as `Context`). -/
inductive LineOp where
  | context (text : String)
  | delete (text : String)
  | insert (text : String)
  deriving DecidableEq, Repr

/-- Classify a raw hunk body line into the data model's `LineOp`. -/
def classifyOp (ln : String) : LineOp :=
  if strStarts ln " " then .context (strDrop ln 1)
  else if strStarts ln "-" then .delete (strDrop ln 1)
  else if strStarts ln "+" then .insert (strDrop ln 1)
  else .context (strDrop ln 1)

/-- Modelled from the spec's words (section 4.2): within a hunk, each
`Context` op copies the original line at the current source cursor into
the output and advances the source cursor; each `Delete` op advances the
source cursor without emitting output; each `Insert` op emits its text
without advancing the source cursor.  Copying "the original line at the
current source cursor" is undefined (`none`) when no such line exists. -/
def specOpsRun (src : List String) : Nat → List LineOp → Option (List String × Nat)
  | c, [] => some ([], c)
  | c, .context _ :: rest =>
    (src.get? (c - 1)).bind (fun t =>
      (specOpsRun src (c + 1) rest).map (fun r => (t :: r.1, r.2)))
  | c, .delete _ :: rest => specOpsRun src (c + 1) rest
  | c, .insert t :: rest => (specOpsRun src c rest).map (fun r => (t :: r.1, r.2))

/-- Modelled from the spec's words (section 4.2): before each hunk the
unchanged lines up to `old_start` are copied verbatim from the original
(undefined when those lines do not exist), the hunk body is interpreted by
`specOpsRun`, and after the last hunk all remaining original lines are
copied verbatim. -/
def specGo (src : List String) : Nat → List Hunk → Option (List String)
  | c, [] => some (src.drop (c - 1))
  | c, h :: hs =>
    if c < h.old_start ∧ src.length + 1 < h.old_start then none
    else
      (specOpsRun src (max c h.old_start) (h.lines.map classifyOp)).bind (fun p =>
        (specGo src p.2 hs).map (fun rest =>
          (src.drop (c - 1)).take (h.old_start - c) ++ p.1 ++ rest))

/-- The spec's single-pass apply algorithm on whole texts. -/
def specSinglePass (origText : String) (hunks : List Hunk) : Option String :=
  (specGo (splitlinesPy origText) 1 hunks).map joinLines

/-! ## PathSandbox (`_to_repo_relative` and `_path_allowed_with`,
handlers.py lines 56-133)

`REPO_ROOT`, `REPO_NAME` and the working directory come from the process
environment (`GITHUB_WORKSPACE`, `GITHUB_REPOSITORY`, `os.getcwd()`); they
are modelled as an explicit environment record.  Paths are modelled with
POSIX semantics (`os.path.isabs(p)` is `p.startswith("/")`,
`os.path.relpath` is the posixpath algorithm); `os.path.relpath` never
raises on POSIX, so the `except` fallbacks are dead and not modelled. -/

/-- The environment-derived globals used by the path helpers. -/
structure Env where
  repoRoot : String
  repoName : String
  cwd : String

/-- The fixed deny-list of generic system directories scanned over by
`_to_repo_relative`'s best-effort branch. -/
def denyDirs : List String :=
  ["Users", "home", "tmp", "var", "opt", "usr", "bin", "sbin", "etc"]

/-- Python `p.lstrip("./").lstrip("/")`: drop leading `.` and `/` characters
(the second `lstrip` is subsumed by the first). -/
def pyLstripDotSlash (s : String) : String :=
  String.mk (s.toList.dropWhile (fun c => c = '.' ∨ c = '/'))

/-- Segment normalisation of `posixpath.normpath` for an absolute path:
empty and `.` segments vanish, `..` pops (staying at the root). -/
def normSegs (parts : List String) : List String :=
  parts.foldl
    (fun acc part =>
      if part = "" ∨ part = "." then acc
      else if part = ".." then acc.dropLast
      else acc ++ [part]) []

/-- Segments of `posixpath.abspath`: join with the working directory when
not absolute, then normalise. -/
def absSegs (cwd p : String) : List String :=
  let full := if strStarts p "/" then p else cwd ++ "/" ++ p
  normSegs ((splitChars '/' full.toList).map String.mk)

/-- Length of the common prefix of two segment lists
(`os.path.commonprefix`). -/
def commonLen : List String → List String → Nat
  | a :: as, b :: bs => if a = b then commonLen as bs + 1 else 0
  | _, _ => 0

/-- `posixpath.relpath(p, start)`. -/
def relpathPosix (cwd p start : String) : String :=
  let pl := absSegs cwd p
  let sl := absSegs cwd start
  let i := commonLen sl pl
  let rel := List.replicate (sl.length - i) ".." ++ pl.drop i
  if rel = [] then "." else joinWith "/" rel

/-- Python `s.split(needle, 1)[1]`: the suffix after the first occurrence
of `needle`, or `none` when absent. -/
def splitFirstAfter (needle : List Char) : List Char → Option (List Char)
  | [] => if needle.isPrefixOf ([] : List Char) then some [] else none
  | c :: cs =>
    if needle.isPrefixOf (c :: cs) then some ((c :: cs).drop needle.length)
    else splitFirstAfter needle cs

/-- The character list of the literal `"/src/"`. -/
def srcNeedle : List Char := ['/', 's', 'r', 'c', '/']

/-- Python `p.split("/src/")` (full split, leftmost, non-overlapping). -/
def splitOnSrc : List Char → List (List Char)
  | [] => [[]]
  | c :: cs =>
    if srcNeedle.isPrefixOf (c :: cs) then [] :: splitOnSrc (cs.drop 4)
    else
      match splitOnSrc cs with
      | [] => [[c]]
      | g :: gs => (c :: g) :: gs
termination_by l => l.length
decreasing_by
  · simp only [List.length_drop, List.length_cons]; omega
  · simp [List.length_cons]

/-- The scan `for i, part in enumerate(path_parts): if part and
i < len(path_parts) - 1 and part not in [...]: return "/".join(...)`. -/
def tryProjectSegs : List String → Option String
  | [] => none
  | [_] => none
  | part :: rest =>
    if part ≠ "" ∧ part ∉ denyDirs then some (joinWith "/" (part :: rest))
    else tryProjectSegs rest

/-- `_to_repo_relative(path)` (handlers.py lines 56-116), parameterised by
the environment-derived `REPO_ROOT`/`REPO_NAME`/working directory.  The
`print` debugging statements of the source are pure logging and are not
modelled. -/
def toRepoRelative (env : Env) (path : String) : String :=
  let p1 := String.mk ((pyStrip path).toList.map (fun c => if c = '\\' then '/' else c))
  let needle := "/" ++ env.repoName ++ "/"
  let p :=
    match splitFirstAfter needle.toList p1.toList with
    | some rest => String.mk rest
    | none => p1
  if strStarts p "/" then
    if containsStr p env.repoRoot then
      pyLstripDotSlash (relpathPosix env.cwd p env.repoRoot)
    else
      match tryProjectSegs ((splitChars '/' p.toList).map String.mk) with
      | some r => r
      | none =>
        if containsStr p "/src/" then
          "src/" ++ String.mk (((splitOnSrc p.toList).get? 1).getD [])
        else pyLstripDotSlash (relpathPosix env.cwd p env.repoRoot)
  else
    if ¬ strStarts p env.repoRoot then pyLstripDotSlash p
    else pyLstripDotSlash (relpathPosix env.cwd p env.repoRoot)

/-- An allow-list entry normalised to end with `/`
(`a = a if a.endswith("/") else a + "/"`). -/
def normSlash (a : String) : String :=
  if strEnds a "/" then a else a ++ "/"

/-- The prefix loop of `_path_allowed_with`. -/
def allowLoop (p : String) : List String → Bool
  | [] => false
  | a :: rest =>
    if a = "" then true
    else if p = strDropRight (normSlash a) 1 ∨ strStarts p (normSlash a) then true
    else allowLoop p rest

/-- `_path_allowed_with(path, allowed_prefixes)` (handlers.py lines
118-129): empty allow-list (or `None`, subsumed by the empty list) or a
literal empty entry allows everything; otherwise the repo-relativised path
is tested against each prefix. -/
def pathAllowedWith (env : Env) (path : String) (allowed : List String) : Bool :=
  if allowed.isEmpty ∨ allowed.any (fun a => a = "") then true
  else allowLoop (toRepoRelative env path) allowed

/-! ## DiffEngine: statistics (`_diff_stats`, handlers.py lines 369-382) -/

/-- The scanning loop of `_diff_stats`: `files` models the growing `set()`
of paths behind `+++ b/` markers (kept as a duplicate-free list, so
`len(files)` is its length), `changes` counts `+`/`-` lines that are not
file-boundary markers. -/
def diffStatsGo : List String → List String → Nat → Nat × Nat
  | [], files, changes => (files.length, changes)
  | ln :: rest, files, changes =>
    if strStarts ln "--- a/" then diffStatsGo rest files changes
    else if strStarts ln "+++ b/" then
      diffStatsGo rest
        (if strDrop ln 6 ∈ files then files else files ++ [strDrop ln 6]) changes
    else if strStarts ln "+" ∧ ¬ strStarts ln "+++" then diffStatsGo rest files (changes + 1)
    else if strStarts ln "-" ∧ ¬ strStarts ln "---" then diffStatsGo rest files (changes + 1)
    else diffStatsGo rest files changes

/-- `_diff_stats(diff_text)`: `(files_touched, changed_lines)`. -/
def diffStats (diffText : String) : Nat × Nat :=
  diffStatsGo (splitlinesPy diffText) [] 0

/-! ## Agent results and the orchestrator tail of `handle_issue_event`

The agent's reply is a JSON dict; the orchestrator only reads its
`action`, `diff`, `needs` (and display-only fields), modelled as a typed
record.  The tracker/VCS collaborator calls made by the orchestrator are
recorded as an effect trace. -/

/-- A model-issued context need (`{path, symbol, line, around_lines}`). -/
structure NeedD where
  path : String
  symbol : Option String
  line : Option Int
  around_lines : Option Int
  deriving DecidableEq, Repr

/-- A sanitized need as rebuilt by `_sanitize_needs` (its `around_lines`
is a definite integer). -/
structure SNeed where
  path : String
  symbol : Option String
  line : Option Int
  around_lines : Int
  deriving DecidableEq, Repr

/-- A fetched snippet (`{path, start_line, end_line, code}`). -/
structure SnippetD where
  path : String
  start_line : Int
  end_line : Int
  code : String
  deriving DecidableEq, Repr

/-- The fields of the agent's reply dict that the orchestrator and
`run_two_rounds` inspect (`result.get("action")`, `result.get("needs", [])`,
`result.get("diff", "")`, `result.get("reason", ...)`). -/
structure RoundResult where
  action : String
  needs : List NeedD
  diff : String
  reason : String
  deriving DecidableEq, Repr

/-- Comments posted by the orchestrator, identified by their site in
`handle_issue_event` (the long formatted bodies are display-only). -/
inductive CommentKind where
  | requestContext
  | budgetExceeded (filesTouched changedLines : Nat)
  | applyFailed (msg : String)
  | prSummary
  | issueNotify
  deriving DecidableEq, Repr

/-- Outbound collaborator calls made while handling an agent result:
`get_file_text`, `add_issue_comment`, `create_branch`,
`create_or_update_file`, `create_pr`. -/
inductive Eff where
  | readFile (path : String)
  | addComment (k : CommentKind)
  | createBranch (name fromRef : String)
  | writeFile (path content : String)
  | createPR
  deriving DecidableEq, Repr

/-- The per-file loop of `_apply_unified_diff` (handlers.py lines
351-366): for each parsed file, in insertion order, check the allow-list,
fetch the current text (`get_file_text`, recorded as a `readFile` effect)
and apply the hunks.  A disallowed path raises `ValueError` before any
further processing; a hunk-application `IndexError` propagates too.
`repo` models `get_file_text(path, base_ref)` on the base branch. -/
def applyDiffLoop (env : Env) (allowed : List String) (repo : String → String) :
    List (String × List Hunk) → List Eff × Except String (List (String × String))
  | [] => ([], .ok [])
  | (path, hunks) :: rest =>
    if pathAllowedWith env path allowed then
      match applyHunksToText (repo path) hunks with
      | some newText =>
        let r := applyDiffLoop env allowed repo rest
        (Eff.readFile path :: r.1, r.2.map (fun u => (path, newText) :: u))
      | none => ([Eff.readFile path], .error "IndexError: list index out of range")
    else ([], .error ("Path not allowed: " ++ path))

/-- `_apply_unified_diff(base_ref, diff_text)` with its effect trace. -/
def applyUnifiedDiffTr (env : Env) (allowed : List String) (repo : String → String)
    (diffText : String) : List Eff × Except String (List (String × String)) :=
  applyDiffLoop env allowed repo (parseUnifiedDiff diffText)

/-- The tail of `handle_issue_event` after the agent call (handlers.py
lines 800-938): a `request_context` result is answered with a comment;
otherwise the diff is checked against the `(MAX_FILES, MAX_LINES)` budget
via `_diff_stats` before anything else, then applied via
`_apply_unified_diff`; on success a branch is created, every updated file
is written once via `create_or_update_file`, and a draft PR is opened and
announced.  Returns the effect trace and the handler's return value (the
PR url or `None`). -/
def handleAgentResult (env : Env) (allowed : List String) (maxFiles maxLines : Nat)
    (repo : String → String) (branch base prUrl : String) (result : RoundResult) :
    List Eff × Option String :=
  if result.action = "request_context" then ([.addComment .requestContext], none)
  else if (diffStats result.diff).1 > maxFiles ∨ (diffStats result.diff).2 > maxLines then
    ([.addComment (.budgetExceeded (diffStats result.diff).1 (diffStats result.diff).2)],
      none)
  else
    match applyUnifiedDiffTr env allowed repo result.diff with
    | (es, .error msg) => (es ++ [.addComment (.applyFailed msg)], none)
    | (es, .ok updated) =>
      (es ++ [.createBranch branch base]
        ++ updated.map (fun u => Eff.writeFile u.1 u.2)
        ++ [.createPR, .addComment .prSummary, .addComment .issueNotify], some prUrl)

/-- The `create_or_update_file` calls of an effect trace. -/
def writesOf (effs : List Eff) : List (String × String) :=
  effs.filterMap (fun e => match e with | .writeFile p c => some (p, c) | _ => none)

/-- The `get_file_text` calls of an effect trace. -/
def readsOf (effs : List Eff) : List String :=
  effs.filterMap (fun e => match e with | .readFile p => some p | _ => none)

/-- The path keys of a parse result, in order. -/
def keysOf (d : ParsedDiff) : List String := d.map (fun e => e.1)

/-! ## AgentContract (`agent_llm.py`) -/

/-- The agent's own allow-list check (`TicketWatcherAgent._path_allowed`,
agent_llm.py lines 396-400): the empty path is refused, otherwise a plain
string-prefix test against `self.allowed_paths` (no repo-relativisation
here, unlike the handlers module). -/
def pathAllowedAgent (allowedPaths : List String) (path : String) : Bool :=
  if path = "" then false
  else allowedPaths.any (fun pfx => strStarts path pfx)

/-- The `around_lines` normalisation
`int(n.get("around_lines") or self.default_around_lines)`: a missing or
zero (falsy) value becomes the configured default. -/
def aroundOrDefault (a : Option Int) (defaultAround : Int) : Int :=
  match a with
  | none => defaultAround
  | some v => if v = 0 then defaultAround else v

/-- `_sanitize_needs` (agent_llm.py lines 289-305): drop a need whose path
fails `_path_allowed`, clamp `around_lines` by
`max(10, min(around, default))`, and rebuild the need with `path`,
`symbol` and `line` unchanged. -/
def sanitizeNeeds (allowedPaths : List String) (defaultAround : Int) :
    List NeedD → List SNeed
  | [] => []
  | n :: rest =>
    if pathAllowedAgent allowedPaths n.path then
      { path := n.path, symbol := n.symbol, line := n.line,
        around_lines := max 10 (min (aroundOrDefault n.around_lines defaultAround)
          defaultAround) } :: sanitizeNeeds allowedPaths defaultAround rest
    else sanitizeNeeds allowedPaths defaultAround rest

/-- `run_two_rounds` (agent_llm.py lines 178-202): round 1 on the seed
snippets; on a `request_context` result with a non-empty sanitized needs
list, fetch once and run round 2 on the seed snippets with the fetched
snippets appended; otherwise return the round-1 result as is.  `run`
abstracts `self.run(ticket_title, ticket_body, ·, trim_body_chars)`, one
complete LLM round on a snippet list. -/
def runTwoRounds (run : List SnippetD → RoundResult) (allowedPaths : List String)
    (defaultAround : Int) (fetchCallback : List SNeed → List SnippetD)
    (seedSnippets : List SnippetD) : RoundResult :=
  if (run seedSnippets).action = "request_context" then
    if sanitizeNeeds allowedPaths defaultAround (run seedSnippets).needs = [] then
      run seedSnippets
    else
      run (seedSnippets ++
        fetchCallback (sanitizeNeeds allowedPaths defaultAround (run seedSnippets).needs))
  else run seedSnippets

/-- A JSON value as decoded by `json.loads`. -/
inductive Json where
  | null
  | bool (b : Bool)
  | num (n : Int)
  | str (s : String)
  | arr (elems : List Json)
  | obj (fields : List (String × Json))

/-- Python `s.lstrip()`-style removal of the leading `\s*` run. -/
def dropWhileWs (s : String) : String :=
  String.mk (s.toList.dropWhile isWs)

/-- Removal of a trailing whitespace run. -/
def rstripWs (s : String) : String :=
  String.mk ((s.toList.reverse.dropWhile isWs).reverse)

/-- `_strip_code_fences` (agent_llm.py lines 278-285): strip whitespace;
when the text starts with a backtick fence, remove the opening fence, an
optional `json` tag and the whitespace after it
(`re.sub` of the anchored pattern `caret + fence + optional json + \s*`),
and, when the text then ends with a closing fence, remove that fence and
the whitespace run before it (`re.sub` of `\s*` + fence + dollar); strip
whitespace again. -/
def stripCodeFences (s0 : String) : String :=
  let s := pyStrip s0
  pyStrip
    (if strStarts s "```" then
      let r := strDrop s 3
      let r := if strStarts r "json" then strDrop r 4 else r
      let r := dropWhileWs r
      if strEnds r "```" then rstripWs (strDropRight r 3) else r
    else s)

/-- Dict lookup `fields.get(key)` on a decoded JSON object, `Json.null`
standing for Python `None` when the key is absent. -/
def jGet (fields : List (String × Json)) (key : String) : Json :=
  match fields.find? (fun f => f.1 = key) with
  | some f => f.2
  | none => .null

/-- The reason of the synthetic reply for undecodable model output. -/
def jsonErrReason : String :=
  "Model did not return valid JSON. Please provide exact slices you need."

/-- The reason of the synthetic reply for a missing or unknown action. -/
def actionErrReason : String :=
  "Missing or invalid 'action'. Expected 'request_context' or 'propose_patch'."

/-- The fields of the synthetic `request_context` dict `_call_llm` builds
on a contract violation: empty `needs`, a diagnostic `reason`, and the
first 2000 characters of the raw reply. -/
def fallbackFields (reason raw : String) : List (String × Json) :=
  [("action", .str "request_context"), ("needs", .arr []),
   ("reason", .str reason), ("raw", .str (strTake raw 2000))]

/-- The synthetic fallback dict as a JSON value. -/
def fallbackDict (reason raw : String) : Json :=
  .obj (fallbackFields reason raw)

/-- The decode-and-validate tail of `_call_llm` (agent_llm.py lines
242-276), after the chat call returned `content`: strip, remove fences,
`json.loads` (`decode`, returning `none` on `JSONDecodeError`);
undecodable text yields the first synthetic `request_context` dict; a
decoded non-object raises `AttributeError` at `data.get("action")`
(modelled as `.error`); an object whose `action` is not one of the two
allowed strings yields the second synthetic dict; otherwise the decoded
dict is returned unchanged. -/
def validateDecoded (raw : String) : Option Json → Except String Json
  | none => .ok (fallbackDict jsonErrReason raw)
  | some (.obj fields) =>
    match jGet fields "action" with
    | .str a =>
      if a = "request_context" ∨ a = "propose_patch" then .ok (.obj fields)
      else .ok (fallbackDict actionErrReason raw)
    | _ => .ok (fallbackDict actionErrReason raw)
  | some _ => .error "AttributeError"

def callLLM (decode : String → Option Json) (content : String) : Except String Json :=
  validateDecoded (stripCodeFences (pyStrip content))
    (decode (stripCodeFences (pyStrip content)))

/-! ## `parse_stack_text` and its regexes (handlers.py lines 43-54 and
135-200)

The three patterns (`_RE_PY_FILELINE`, `_RE_GENERIC_PATHLINE`,
`_RE_TARGET`) are implemented as direct matchers following the regex
engine's leftmost scan with greedy/lazy backtracking; the generic-token
and Target scanners take a character-count fuel (always called with the
full text length, which bounds the number of scanning steps since every
step consumes at least one character). -/

/-- ASCII `\w` for the `\b` word boundary. -/
def isWordChar (c : Char) : Bool :=
  c.isAlpha || c.isDigit || c = '_'

/-- The characters stripped by `tok.strip()` followed by
`tok.strip` of a backtick, a double quote and a single quote. -/
def isQuoteTick (c : Char) : Bool :=
  c = Char.ofNat 96 || c = '"' || c = Char.ofNat 39

/-- The trailing-junk class of `re.sub` applied by `_sanitize_path_token`:
a single quote, a double quote, whitespace, comma, closing parenthesis,
closing square bracket, greater-than. -/
def isTrailJunk (c : Char) : Bool :=
  c = Char.ofNat 39 || c = '"' || isWs c || c = ',' || c = ')' || c = ']' || c = '>'

/-- `_sanitize_path_token` (handlers.py lines 47-54). -/
def sanitizePathToken (tok : String) : String :=
  let t := pyStrip tok
  let t := String.mk (((t.toList.dropWhile isQuoteTick).reverse.dropWhile isQuoteTick).reverse)
  String.mk ((t.toList.reverse.dropWhile isTrailJunk).reverse)

/-- One match attempt of `_RE_PY_FILELINE`
(`File`, one or more spaces, a quoted non-empty path, optional spaces,
comma, optional spaces, `line`, one or more spaces, digits, word
boundary) anchored at the head of the input; returns the path and digit
groups.  Every quantifier here is determinate: each repeated class is
disjoint from the following literal. -/
def fileLineMatchAt (cs : List Char) : Option (List Char × List Char) :=
  match cs with
  | 'F' :: 'i' :: 'l' :: 'e' :: r1 =>
    let wsr := r1.dropWhile isWs
    if r1.length = wsr.length then none
    else
      match wsr with
      | '"' :: r2 =>
        let g1 := r2.takeWhile (fun c => ¬ c = '"')
        let r3 := r2.dropWhile (fun c => ¬ c = '"')
        if g1 = [] then none
        else
          match r3 with
          | '"' :: r4 =>
            match r4.dropWhile isWs with
            | ',' :: r6 =>
              match r6.dropWhile isWs with
              | 'l' :: 'i' :: 'n' :: 'e' :: r8 =>
                let wsr8 := r8.dropWhile isWs
                if r8.length = wsr8.length then none
                else
                  let d := wsr8.takeWhile Char.isDigit
                  let r9 := wsr8.dropWhile Char.isDigit
                  if d = [] then none
                  else if (match r9 with | c :: _ => isWordChar c | [] => false) then none
                  else some (g1, d)
              | _ => none
            | _ => none
          | _ => none
      | _ => none
  | _ => none

/-- `_RE_PY_FILELINE.search(line)`: the leftmost match. -/
def searchFileLine : List Char → Option (List Char × List Char)
  | [] => none
  | c :: cs =>
    match fileLineMatchAt (c :: cs) with
    | some r => some r
    | none => searchFileLine cs

/-- The character class `[^\s'",)\]]` of `_RE_GENERIC_PATHLINE` (note that
`:` itself belongs to the class). -/
def isGenericTokChar (c : Char) : Bool :=
  ¬ (isWs c || c = Char.ofNat 39 || c = '"' || c = ',' || c = ')' || c = ']')

/-- One split attempt for `([^\s'",)\]]+):(\d+)\b` inside the maximal
class run `R` followed by `after`: the colon at index `j` of `R`, a
non-empty maximal digit run after it, and the word boundary. -/
def genericTryAt (R after : List Char) (j : Nat) : Option (List Char × List Char × List Char) :=
  if R.get? j = some ':' then
    let tail := R.drop (j + 1)
    let d := tail.takeWhile Char.isDigit
    let r9 := tail.dropWhile Char.isDigit ++ after
    if d = [] then none
    else if (match r9 with | c :: _ => isWordChar c | [] => false) then none
    else some (R.take j, d, r9)
  else none

/-- Greedy backtracking over the first group: try the rightmost usable
colon first (descending `j`), mirroring the engine's preference for the
longest `[^\s'",)\]]+` capture. -/
def genericDescend (R after : List Char) : Nat → Option (List Char × List Char × List Char)
  | 0 => none
  | j + 1 =>
    match genericTryAt R after (j + 1) with
    | some r => some r
    | none => genericDescend R after j

/-- `_RE_GENERIC_PATHLINE.finditer(line)`: scan left to right, matching
the class run at each position and continuing after each match; `fuel` is
the scanning budget (one unit per consumed character suffices). -/
def genericFindAllF : Nat → List Char → List (List Char × List Char)
  | 0, _ => []
  | _ + 1, [] => []
  | fuel + 1, c :: cs =>
    let R := (c :: cs).takeWhile isGenericTokChar
    match genericDescend R ((c :: cs).dropWhile isGenericTokChar) (R.length - 1) with
    | some (g1, d, rest) => (g1, d) :: genericFindAllF fuel rest
    | none => genericFindAllF fuel cs

/-- Is the position at the end of the text or just before a newline
(where `$` matches in `re.MULTILINE`)? -/
def eolAt : List Char → Bool
  | [] => true
  | c :: _ => c = '\n'

/-- Length of the whitespace run at the head. -/
def wsRunLen (cs : List Char) : Nat := (cs.takeWhile isWs).length

/-- Greedy `\s*` followed by `$`: try consuming `k` whitespace characters
for `k` descending, and succeed at the first position where `$` holds;
returns the unconsumed remainder. -/
def wsThenEolAux (cs : List Char) : Nat → Option (List Char)
  | 0 => if eolAt cs then some cs else none
  | k + 1 =>
    if eolAt (cs.drop (k + 1)) then some (cs.drop (k + 1))
    else wsThenEolAux cs k

/-- The lazy group `(.+?)` followed by `\s*$`: grow the group one
non-newline character at a time, checking the tail pattern after each
step. -/
def groupThenEnd : List Char → Option (List Char × List Char)
  | [] => none
  | c :: cs =>
    if c = '\n' then none
    else
      match wsThenEolAux cs (wsRunLen cs) with
      | some rest => some ([c], rest)
      | none =>
        match groupThenEnd cs with
        | some (g, rest) => some (c :: g, rest)
        | none => none

/-- The greedy `\s*` before the group: try consuming `k` whitespace
characters for `k` descending (the regex prefers the longest run that
lets the rest of the pattern match). -/
def targetW2Aux (T : List Char) : Nat → Option (List Char × List Char)
  | 0 => groupThenEnd T
  | k + 1 =>
    match groupThenEnd (T.drop (k + 1)) with
    | some r => some r
    | none => targetW2Aux T k

/-- `\s*(.+?)\s*$` applied after the literal `Target:`. -/
def afterTargetColon (T : List Char) : Option (List Char × List Char) :=
  targetW2Aux T (wsRunLen T)

/-- One match attempt of `_RE_TARGET` at a `^` position: leading `\s*`
(which may span line breaks), the literal `Target:`, then the group. -/
def targetMatchAt (cs : List Char) : Option (List Char × List Char) :=
  match cs.dropWhile isWs with
  | 'T' :: 'a' :: 'r' :: 'g' :: 'e' :: 't' :: ':' :: T => afterTargetColon T
  | _ => none

/-- `_RE_TARGET.finditer(text)` under `re.MULTILINE`: attempt a match at
the start of the text and after every newline, continuing after each
match; `atStart` tracks whether the current position is a `^` position. -/
def targetFindAllF : Nat → Bool → List Char → List (List Char)
  | 0, _, _ => []
  | _ + 1, _, [] => []
  | fuel + 1, atStart, c :: cs =>
    if atStart then
      match targetMatchAt (c :: cs) with
      | some (g, rest) => g :: targetFindAllF fuel false rest
      | none => targetFindAllF fuel (c = '\n') cs
    else targetFindAllF fuel (c = '\n') cs

/-- All `_RE_TARGET` captures of a text. -/
def targetFindAll (text : List Char) : List (List Char) :=
  targetFindAllF text.length true text

/-- Python `raw_full.rsplit(":", 1)`: the pieces around the last colon,
or `none` when the string has no colon. -/
def rsplitColon (s : String) : String × Option String :=
  let cs := s.toList
  if ':' ∈ cs then
    let after := ((cs.reverse.takeWhile (fun c => ¬ c = ':'))).reverse
    (String.mk (cs.take (cs.length - after.length - 1)), some (String.mk after))
  else (s, none)

/-- Tier 1 of `parse_stack_text`: per line, the first
`File "<path>", line <n>` match, sanitised, repo-relativised and
allow-list filtered (the allow-list check is `_path_allowed`, which reads
the global `ALLOWED_PATHS`). -/
def tierFileLine (env : Env) (allowedGlobal : List String) (lines : List String) :
    List (String × Option Nat) :=
  lines.filterMap (fun line =>
    match searchFileLine line.toList with
    | some (g1, d) =>
      let path := toRepoRelative env (sanitizePathToken (String.mk g1))
      if path ≠ "" ∧ pathAllowedWith env path allowedGlobal then
        some (path, some (digitsToNat d))
      else none
    | none => none)

/-- Tier 2 of `parse_stack_text`: all generic `token:line` matches of
every line, filtered the same way. -/
def tierGeneric (env : Env) (allowedGlobal : List String) (lines : List String) :
    List (String × Option Nat) :=
  (lines.map (fun line =>
    (genericFindAllF line.toList.length line.toList).filterMap (fun gd =>
      let path := toRepoRelative env (sanitizePathToken (String.mk gd.1))
      if path ≠ "" ∧ pathAllowedWith env path allowedGlobal then
        some (path, some (digitsToNat gd.2))
      else none))).flatten

/-- Tier 3 of `parse_stack_text`: every `Target:` capture of the whole
text; a capture ending in `:<digits>` is split into path and line. -/
def tierTarget (env : Env) (allowedGlobal : List String) (text : String) :
    List (String × Option Nat) :=
  (targetFindAll text.toList).filterMap (fun g =>
    let rawFull := sanitizePathToken (String.mk g)
    let pl :=
      match rsplitColon rawFull with
      | (b, some a) =>
        if ¬ a.toList = [] ∧ a.toList.all Char.isDigit then (b, some (digitsToNat a.toList))
        else (rawFull, (none : Option Nat))
      | (_, none) => (rawFull, none)
    let path := toRepoRelative env pl.1
    if path ≠ "" ∧ pathAllowedWith env path allowedGlobal then some (path, pl.2)
    else none)

/-- The final stage of `parse_stack_text`: de-duplicate by the key
`(path, line or 0)` while preserving order, stopping once `max(1, limit)`
entries are kept. -/
def dedupeCapGo (limit : Nat) (seen : List (String × Nat))
    (uniq : List (String × Option Nat)) :
    List (String × Option Nat) → List (String × Option Nat)
  | [] => uniq
  | (p, ln) :: rest =>
    if (p, ln.getD 0) ∈ seen then dedupeCapGo limit seen uniq rest
    else
      if max 1 limit ≤ (uniq ++ [(p, ln)]).length then uniq ++ [(p, ln)]
      else dedupeCapGo limit ((p, ln.getD 0) :: seen) (uniq ++ [(p, ln)]) rest

/-- `parse_stack_text(text, allowed_prefixes=..., limit=5)` (handlers.py
lines 135-200).  The `allowed_prefixes` keyword parameter is accepted but
never read by the body, which calls the global-allow-list `_path_allowed`
instead; the gathering order is: per-line `File "...", line N` matches,
then per-line generic `token:line` matches, then `Target:` captures of
the whole text; finally de-duplication and the cap. -/
def parseStackText (env : Env) (allowedGlobal : List String) (text : String)
    (_allowedPrefixParam : Option (List String)) (limit : Nat) :
    List (String × Option Nat) :=
  if text = "" then []
  else
    dedupeCapGo limit [] []
      (tierFileLine env allowedGlobal (splitlinesPy text)
        ++ tierGeneric env allowedGlobal (splitlinesPy text)
        ++ tierTarget env allowedGlobal text)

/-! ## Lemmas about the hunk applier -/

theorem procOps_cursor_le (src : List String) :
    ∀ (lines : List String) (c : Nat), c ≤ (procOps src lines c).2 := by
  intro lines
  induction lines with
  | nil => intro c; simp [procOps]
  | cons ln rest ih =>
    intro c
    simp only [procOps]
    split
    · exact le_trans (Nat.le_succ c) (ih (c + 1))
    · split
      · exact le_trans (Nat.le_succ c) (ih (c + 1))
      · split
        · exact ih c
        · exact le_trans (Nat.le_succ c) (ih (c + 1))

theorem copyUpTo_eq (src : List String) (stop : Nat) :
    ∀ (d c : Nat), stop - c = d → 1 ≤ c → c ≤ stop → stop ≤ src.length + 1 →
      copyUpTo src c stop = some ((src.drop (c - 1)).take (stop - c), stop) := by
  intro d
  induction d with
  | zero =>
    intro c hd _ hcs _
    have hc : c = stop := le_antisymm hcs (Nat.le_of_sub_eq_zero hd)
    subst hc
    rw [copyUpTo]
    simp
  | succ n ih =>
    intro c hd h1 _ hlen
    have hlt : c < stop := by omega
    have hidx : c - 1 < src.length := by omega
    rw [copyUpTo, dif_pos hlt]
    have hget : src.get? (c - 1) = some src[c - 1] := by
      rw [List.get?_eq_getElem?, List.getElem?_eq_getElem hidx]
    rw [hget, Option.some_bind, ih (c + 1) (by omega) (by omega) (by omega) hlen]
    simp only [Option.map_some']
    congr 1
    have hdrop : src.drop (c - 1) = src[c - 1] :: src.drop c := by
      have h := List.drop_eq_getElem_cons hidx
      have hc : c - 1 + 1 = c := by omega
      rw [hc] at h
      exact h
    rw [hdrop]
    have htake : stop - c = (stop - (c + 1)) + 1 := by omega
    rw [htake, List.take_succ_cons]
    simp

theorem copyUpTo_ge (src : List String) (c stop : Nat) (h : stop ≤ c) :
    copyUpTo src c stop = some ([], c) := by
  rw [copyUpTo]
  rw [dif_neg (by omega)]

theorem refOps_cursor_le (src : List String) :
    ∀ (lines : List String) (c : Nat) (p : List String × Nat),
      refOps src c lines = some p → c ≤ p.2 := by
  intro lines
  induction lines with
  | nil =>
    intro c p h
    simp only [refOps, Option.some_inj] at h
    rw [← h]
  | cons ln rest ih =>
    intro c p h
    simp only [refOps] at h
    split at h
    · rw [Option.bind_eq_some] at h
      obtain ⟨t, _, h⟩ := h
      split at h
      · rw [Option.map_eq_some'] at h
        obtain ⟨r, hr, heq⟩ := h
        have := ih (c + 1) r hr
        rw [← heq]
        simp only
        omega
      · exact absurd h (by simp)
    · split at h
      · rw [Option.bind_eq_some] at h
        obtain ⟨t, _, h⟩ := h
        split at h
        · have := ih (c + 1) p h
          omega
        · exact absurd h (by simp)
      · split at h
        · rw [Option.map_eq_some'] at h
          obtain ⟨r, hr, heq⟩ := h
          have := ih c r hr
          rw [← heq]
          simpa using this
        · exact absurd h (by simp)

theorem refOps_procOps (src : List String) :
    ∀ (lines : List String) (c : Nat) (p : List String × Nat),
      refOps src c lines = some p → procOps src lines c = p := by
  intro lines
  induction lines with
  | nil =>
    intro c p h
    simp only [refOps, Option.some_inj] at h
    simp [procOps, h]
  | cons ln rest ih =>
    intro c p h
    simp only [refOps] at h
    simp only [procOps]
    split at h
    · rename_i hsp
      rw [if_pos hsp]
      rw [Option.bind_eq_some] at h
      obtain ⟨t, hg, h⟩ := h
      obtain ⟨hlt, _⟩ := List.get?_eq_some.mp hg
      have hcle : c ≤ src.length := by omega
      split at h
      · rw [Option.map_eq_some'] at h
        obtain ⟨r, hr, heq⟩ := h
        rw [ih (c + 1) r hr, if_pos hcle, hg, ← heq]
        simp
      · exact absurd h (by simp)
    · rename_i hsp
      rw [if_neg hsp]
      split at h
      · rename_i hdel
        rw [if_pos hdel]
        rw [Option.bind_eq_some] at h
        obtain ⟨t, _, h⟩ := h
        split at h
        · exact ih (c + 1) p h
        · exact absurd h (by simp)
      · rename_i hdel
        rw [if_neg hdel]
        split at h
        · rename_i hins
          rw [if_pos hins]
          rw [Option.map_eq_some'] at h
          obtain ⟨r, hr, heq⟩ := h
          rw [ih c r hr, ← heq]
        · exact absurd h (by simp)

theorem refApply_applyHunksGo (src : List String) :
    ∀ (hunks : List Hunk) (c : Nat) (out : List String), 1 ≤ c →
      refApply src c hunks = some out → applyHunksGo src c hunks = some out := by
  intro hunks
  induction hunks with
  | nil =>
    intro c out _ h
    simpa [refApply, applyHunksGo] using h
  | cons h hs ih =>
    intro c out hc1 happ
    simp only [refApply] at happ
    split at happ
    · rename_i hcond
      obtain ⟨hcle, hos1, hoslen⟩ := hcond
      rw [Option.bind_eq_some] at happ
      obtain ⟨p, hops, happ⟩ := happ
      split at happ
      · rw [Option.map_eq_some'] at happ
        obtain ⟨rest, hrec, heq⟩ := happ
        simp only [applyHunksGo]
        rw [copyUpTo_eq src h.old_start (h.old_start - c) c rfl hc1 hcle hoslen,
          Option.some_bind]
        have hp2 : 1 ≤ p.2 :=
          le_trans hos1 (refOps_cursor_le src h.lines h.old_start p hops)
        rw [refOps_procOps src h.lines h.old_start p hops, ih p.2 rest hp2 hrec]
        simp only [Option.map_some', Option.some_inj]
        exact heq
      · exact absurd happ (by simp)
    · exact absurd happ (by simp)

theorem copyUpTo_total (src : List String) (c os : Nat) (h1 : 1 ≤ c)
    (h : os ≤ src.length + 1 ∨ os ≤ c) :
    copyUpTo src c os = some ((src.drop (c - 1)).take (os - c), max c os) := by
  rcases le_or_lt os c with hle | hlt
  · rw [copyUpTo_ge src c os hle]
    have h0 : os - c = 0 := by omega
    have hm : max c os = c := by omega
    rw [h0, hm]
    simp
  · have hlen : os ≤ src.length + 1 := by
      rcases h with h | h
      · exact h
      · omega
    have hm : max c os = os := by omega
    rw [hm]
    exact copyUpTo_eq src os (os - c) c rfl h1 (le_of_lt hlt) hlen

theorem specOpsRun_procOps (src : List String) :
    ∀ (lines : List String) (c : Nat) (p : List String × Nat),
      specOpsRun src c (lines.map classifyOp) = some p → procOps src lines c = p := by
  intro lines
  induction lines with
  | nil =>
    intro c p h
    simp only [List.map_nil, specOpsRun, Option.some_inj] at h
    simp [procOps, h]
  | cons ln rest ih =>
    intro c p h
    simp only [List.map_cons] at h
    simp only [procOps]
    by_cases hsp : strStarts ln " "
    · rw [if_pos hsp]
      rw [show classifyOp ln = .context (strDrop ln 1) from by simp [classifyOp, hsp]] at h
      simp only [specOpsRun] at h
      rw [Option.bind_eq_some] at h
      obtain ⟨t, hg, h⟩ := h
      obtain ⟨hlt, _⟩ := List.get?_eq_some.mp hg
      rw [Option.map_eq_some'] at h
      obtain ⟨r, hr, heq⟩ := h
      rw [ih (c + 1) r hr, if_pos (by omega : c ≤ src.length), hg, ← heq]
      simp
    · rw [if_neg hsp]
      by_cases hdel : strStarts ln "-"
      · rw [if_pos hdel]
        rw [show classifyOp ln = .delete (strDrop ln 1) from by
          simp [classifyOp, hsp, hdel]] at h
        simp only [specOpsRun] at h
        exact ih (c + 1) p h
      · rw [if_neg hdel]
        by_cases hins : strStarts ln "+"
        · rw [if_pos hins]
          rw [show classifyOp ln = .insert (strDrop ln 1) from by
            simp [classifyOp, hsp, hdel, hins]] at h
          simp only [specOpsRun] at h
          rw [Option.map_eq_some'] at h
          obtain ⟨r, hr, heq⟩ := h
          rw [ih c r hr, ← heq]
        · rw [if_neg hins]
          rw [show classifyOp ln = .context (strDrop ln 1) from by
            simp [classifyOp, hsp, hdel, hins]] at h
          simp only [specOpsRun] at h
          rw [Option.bind_eq_some] at h
          obtain ⟨t, hg, h⟩ := h
          obtain ⟨hlt, _⟩ := List.get?_eq_some.mp hg
          rw [Option.map_eq_some'] at h
          obtain ⟨r, hr, heq⟩ := h
          rw [ih (c + 1) r hr, if_pos (by omega : c ≤ src.length), hg, ← heq]
          simp

theorem specGo_applyHunksGo (src : List String) :
    ∀ (hunks : List Hunk) (c : Nat) (out : List String), 1 ≤ c →
      specGo src c hunks = some out → applyHunksGo src c hunks = some out := by
  intro hunks
  induction hunks with
  | nil =>
    intro c out _ h
    simpa [specGo, applyHunksGo] using h
  | cons h hs ih =>
    intro c out hc1 hgo
    simp only [specGo] at hgo
    split at hgo
    · exact absurd hgo (by simp)
    · rename_i hno
      rw [Option.bind_eq_some] at hgo
      obtain ⟨p, hops, hgo⟩ := hgo
      rw [Option.map_eq_some'] at hgo
      obtain ⟨rest, hrec, heq⟩ := hgo
      simp only [applyHunksGo]
      rw [copyUpTo_total src c h.old_start hc1 (by omega), Option.some_bind]
      have hproc := specOpsRun_procOps src h.lines (max c h.old_start) p hops
      have hp2 : 1 ≤ p.2 := by
        have := procOps_cursor_le src h.lines (max c h.old_start)
        rw [hproc] at this
        omega
      rw [hproc, ih p.2 rest hp2 hrec]
      simp only [Option.map_some', Option.some_inj]
      exact heq

/-- C4: For every original text and every list of hunks on which the
spec's single-pass algorithm is defined, `_apply_hunks_to_text` computes
exactly its output: lines before each hunk's `old_start` are copied
verbatim, `Context` ops copy the original line at the source cursor and
advance it, `Delete` ops advance without emitting, `Insert` ops emit
without advancing, and after the last hunk the remaining original lines
are copied verbatim. -/
theorem c4_apply_is_single_pass (orig : String) (hunks : List Hunk) (s : String)
    (h : specSinglePass orig hunks = some s) :
    applyHunksToText orig hunks = some s := by
  unfold specSinglePass at h
  rw [Option.map_eq_some'] at h
  obtain ⟨out, hgo, heq⟩ := h
  unfold applyHunksToText
  rw [specGo_applyHunksGo (splitlinesPy orig) hunks 1 out le_rfl hgo]
  simp [heq]

/-- C4 witness: a concrete original and hunk list where the spec algorithm
is defined and the engine matches it. -/
theorem c4_witness :
    applyHunksToText "a\nb\nc" [⟨2, 2, 2, 2, [" b", "-c", "+z"]⟩] = some "a\nb\nz" :=
  c4_apply_is_single_pass "a\nb\nc" [⟨2, 2, 2, 2, [" b", "-c", "+z"]⟩] "a\nb\nz" rfl

theorem applyHunksGo_total (src : List String) :
    ∀ (hunks : List Hunk) (c : Nat), 1 ≤ c →
      (∀ h ∈ hunks, h.old_start ≤ src.length + 1) →
      ∃ out, applyHunksGo src c hunks = some out := by
  intro hunks
  induction hunks with
  | nil => intro c _ _; exact ⟨_, rfl⟩
  | cons h hs ih =>
    intro c hc1 hb
    simp only [applyHunksGo]
    rw [copyUpTo_total src c h.old_start hc1 (Or.inl (hb h (by simp)))]
    rw [Option.some_bind]
    have hcur := procOps_cursor_le src h.lines (max c h.old_start)
    obtain ⟨out, hout⟩ :=
      ih (procOps src h.lines (max c h.old_start)).2 (by omega)
        (fun g hg => hb g (by simp [hg]))
    rw [hout]
    exact ⟨_, rfl⟩

/-- C10: For every original text and every hunk list in which each hunk's
`old_start` is at most the number of original lines plus one,
`_apply_hunks_to_text` returns a string without raising (the `IndexError`
case `none` does not occur); moreover a context-or-unknown-marker line
whose source cursor is already past the last original line emits nothing
but still advances the cursor, and a `-` line simply advances the
cursor. -/
theorem c10_apply_total (orig : String) (hunks : List Hunk)
    (hb : ∀ h ∈ hunks, h.old_start ≤ (splitlinesPy orig).length + 1) :
    (∃ s, applyHunksToText orig hunks = some s)
    ∧ (∀ (src : List String) (c : Nat) (ln : String) (rest : List String),
        src.length < c → strStarts ln "-" = false → strStarts ln "+" = false →
        procOps src (ln :: rest) c = procOps src rest (c + 1))
    ∧ (∀ (src : List String) (c : Nat) (ln : String) (rest : List String),
        strStarts ln " " = false → strStarts ln "-" = true →
        procOps src (ln :: rest) c = procOps src rest (c + 1)) := by
  refine ⟨?_, ?_, ?_⟩
  · obtain ⟨out, hout⟩ := applyHunksGo_total (splitlinesPy orig) hunks 1 le_rfl hb
    exact ⟨joinLines out, by unfold applyHunksToText; rw [hout]; rfl⟩
  · intro src c ln rest hpast hdel hins
    have hnle : ¬ (c ≤ src.length) := by omega
    by_cases hsp : strStarts ln " " <;>
      simp [procOps, hsp, hdel, hins, hnle]
  · intro src c ln rest hsp hdel
    simp [procOps, hsp, hdel]

/-- C10 witness: a hunk anchored one past the end of a one-line file
applies without an error. -/
theorem c10_witness :
    (∃ s, applyHunksToText "a" [⟨2, 0, 2, 1, ["+x"]⟩] = some s)
    ∧ (∀ (src : List String) (c : Nat) (ln : String) (rest : List String),
        src.length < c → strStarts ln "-" = false → strStarts ln "+" = false →
        procOps src (ln :: rest) c = procOps src rest (c + 1))
    ∧ (∀ (src : List String) (c : Nat) (ln : String) (rest : List String),
        strStarts ln " " = false → strStarts ln "-" = true →
        procOps src (ln :: rest) c = procOps src rest (c + 1)) :=
  c10_apply_total "a" [⟨2, 0, 2, 1, ["+x"]⟩] (by decide)

/-- C1: For every pair of texts A and B and every unified-diff text whose
hunks (as parsed by `_parse_unified_diff`) are ordered by strictly
increasing `old_start`, non-overlapping, and correctly describe the change
from A to B, applying the diff to A via the engine's own parse
(`_parse_unified_diff`) followed by apply (`_apply_hunks_to_text`)
reproduces B exactly.  Non-overlap and the matching of context/deletion
lines are captured by `correctlyDescribes` (the checking reference
application `refApply` succeeds and yields B). -/
theorem c1_parse_apply_roundtrip (diffText A B path : String) (hunks : List Hunk)
    (hfind : lookupDiff (parseUnifiedDiff diffText) path = some hunks)
    (horder : List.Chain' (fun h1 h2 => h1.old_start < h2.old_start) hunks)
    (hdesc : correctlyDescribes A B hunks) :
    applyHunksToText A hunks = some B := by
  unfold correctlyDescribes at hdesc
  rcases hra : refApply (splitlinesPy A) 1 hunks with _ | out
  · rw [hra] at hdesc; exact absurd hdesc (by simp)
  · rw [hra] at hdesc
    simp only [Option.map_some'] at hdesc
    unfold applyHunksToText
    rw [refApply_applyHunksGo (splitlinesPy A) hunks 1 out le_rfl hra]
    simpa using hdesc

/-- C1 witness: a concrete diff text, original A and target B for which the
hypotheses hold and the round trip reproduces B. -/
theorem c1_witness :
    applyHunksToText "a\nb\nc" [⟨1, 3, 1, 3, [" a", "-b", "+x", " c"]⟩] = some "a\nx\nc" := by
  apply c1_parse_apply_roundtrip
      "--- a/f.py\n+++ b/f.py\n@@ -1,3 +1,3 @@\n a\n-b\n+x\n c" "a\nb\nc" "a\nx\nc" "f.py"
  · decide
  · simp
  · rfl

/-! ## Lemmas about the path sandbox -/

theorem splitFirstAfter_none (needle : List Char) :
    ∀ cs : List Char, isInfixChars needle cs = false → splitFirstAfter needle cs = none := by
  intro cs
  induction cs with
  | nil =>
    intro h
    simp only [isInfixChars] at h
    simp [splitFirstAfter, h]
  | cons c cs ih =>
    intro h
    simp only [isInfixChars, Bool.or_eq_false_iff] at h
    simp [splitFirstAfter, h.1, ih h.2]

theorem mk_toList (s : String) : String.mk s.toList = s := by
  cases s
  rfl

theorem map_id_of_mem {α : Type} (l : List α) (f : α → α) (h : ∀ a ∈ l, f a = a) :
    l.map f = l := by
  induction l with
  | nil => rfl
  | cons a as ih =>
    simp only [List.map_cons]
    rw [h a (by simp), ih (fun b hb => h b (by simp [hb]))]

theorem strStarts_slash_of_starts (p b : String) (hb : strStarts b "/" = true)
    (hp : strStarts p b = true) : strStarts p "/" = true := by
  unfold strStarts at *
  rw [List.isPrefixOf_iff_prefix] at *
  exact hb.trans hp

/-- A path left unchanged by `_to_repo_relative` (already repo-relative in
the sense of the data model's `RepoPath`): no surrounding whitespace, no
backslashes, the `/<repo-name>/` needle absent, not absolute, not starting
with the repository root, and no leading `.`/`/` characters. -/
theorem toRepoRelative_fixed (env : Env) (p : String)
    (hstrip : pyStrip p = p)
    (hnb : p.toList.all (fun c => ¬ c = '\\') = true)
    (hinf : containsStr p ("/" ++ env.repoName ++ "/") = false)
    (habs : strStarts p "/" = false)
    (hroot : strStarts p env.repoRoot = false)
    (hds : p.toList.dropWhile (fun c => c = '.' ∨ c = '/') = p.toList) :
    toRepoRelative env p = p := by
  have hmap : String.mk ((pyStrip p).toList.map (fun c => if c = '\\' then '/' else c)) = p := by
    rw [hstrip]
    have hid : p.toList.map (fun c => if c = '\\' then '/' else c) = p.toList := by
      refine map_id_of_mem _ _ (fun c hc => ?_)
      have := List.all_eq_true.mp hnb c hc
      simp at this
      simp [this]
    show String.mk (p.toList.map (fun c => if c = '\\' then '/' else c)) = p
    rw [hid, mk_toList]
  unfold containsStr at hinf
  simp only [toRepoRelative, hmap]
  rw [splitFirstAfter_none _ _ hinf]
  simp only [habs, Bool.false_eq_true, if_false, hroot, not_false_eq_true, if_true,
    Bool.not_eq_true]
  unfold pyLstripDotSlash
  rw [hds, mk_toList]

theorem allowLoop_iff (p : String) :
    ∀ l : List String, "" ∉ l →
      (allowLoop p l = true ↔
        ∃ a ∈ l, p = strDropRight (normSlash a) 1 ∨ strStarts p (normSlash a) = true) := by
  intro l
  induction l with
  | nil => intro _; simp [allowLoop]
  | cons a rest ih =>
    intro hne
    have ha : ¬ a = "" := fun h => hne (by simp [h])
    have hrest : "" ∉ rest := fun h => hne (by simp [h])
    simp only [allowLoop, if_neg ha]
    constructor
    · intro h
      split at h
      · rename_i hcase
        exact ⟨a, by simp, hcase⟩
      · obtain ⟨b, hb, hcond⟩ := (ih hrest).mp h
        exact ⟨b, by simp [hb], hcond⟩
    · intro ⟨b, hb, hcond⟩
      rcases List.mem_cons.mp hb with hb | hb
      · subst hb
        rw [if_pos hcond]
      · split
        · rfl
        · exact (ih hrest).mpr ⟨b, hb, hcond⟩

/-- C3: The allow-list check `_path_allowed_with`: an empty allow-list or
one containing a literal empty entry allows every path; otherwise a
repo-relative path (one `_to_repo_relative` leaves unchanged) is allowed
iff it equals some prefix with its trailing slash removed or starts with
the prefix normalised to end with `/`; in particular, with allow-list
`["src/"]` (in any environment with an absolute repository root whose
`/<repo-name>/` needle does not occur in the tested paths),
`"src/app/auth.py"` is allowed, `"app/auth.py"` is not, and the empty path
is not allowed and raises no exception (the check is total). -/
theorem c3_path_allowed_with (env : Env) :
    (∀ allowed : List String, (allowed = [] ∨ "" ∈ allowed) →
      ∀ p, pathAllowedWith env p allowed = true)
    ∧ (∀ allowed : List String, allowed ≠ [] → "" ∉ allowed →
        ∀ p, toRepoRelative env p = p →
          (pathAllowedWith env p allowed = true ↔
            ∃ a ∈ allowed, p = strDropRight (normSlash a) 1 ∨ strStarts p (normSlash a) = true))
    ∧ (strStarts env.repoRoot "/" = true →
        containsStr "src/app/auth.py" ("/" ++ env.repoName ++ "/") = false →
        containsStr "app/auth.py" ("/" ++ env.repoName ++ "/") = false →
        pathAllowedWith env "src/app/auth.py" ["src/"] = true
          ∧ pathAllowedWith env "app/auth.py" ["src/"] = false
          ∧ pathAllowedWith env "" ["src/"] = false) := by
  have hfixed : ∀ p : String,
      pyStrip p = p → p.toList.all (fun c => ¬ c = '\\') = true →
      containsStr p ("/" ++ env.repoName ++ "/") = false →
      strStarts p "/" = false →
      p.toList.dropWhile (fun c => c = '.' ∨ c = '/') = p.toList →
      strStarts env.repoRoot "/" = true →
      toRepoRelative env p = p := by
    intro p h1 h2 h3 h4 h5 hr
    refine toRepoRelative_fixed env p h1 h2 h3 h4 ?_ h5
    by_contra hcon
    rw [Bool.not_eq_false] at hcon
    have := strStarts_slash_of_starts p env.repoRoot hr hcon
    rw [h4] at this
    exact Bool.false_ne_true this
  refine ⟨?_, ?_, ?_⟩
  · intro allowed hall p
    unfold pathAllowedWith
    rcases hall with h | h
    · simp [h]
    · have : allowed.any (fun a => a = "") = true := by
        rw [List.any_eq_true]
        exact ⟨"", h, by simp⟩
      simp [this]
  · intro allowed hne hnin p hfix
    unfold pathAllowedWith
    have h1 : ¬ allowed.isEmpty = true := by
      cases allowed with
      | nil => exact absurd rfl hne
      | cons a rest => simp [List.isEmpty]
    have h2 : ¬ allowed.any (fun a => a = "") = true := by
      rw [List.any_eq_true]
      rintro ⟨a, ha, hae⟩
      simp at hae
      exact hnin (hae ▸ ha)
    rw [if_neg (by simp [h1, h2]), hfix]
    exact allowLoop_iff p allowed hnin
  · intro hr hn1 hn2
    have hemp : containsStr "" ("/" ++ env.repoName ++ "/") = false := by
      unfold containsStr
      have hc : ("/" ++ env.repoName ++ "/").toList = '/' :: (env.repoName.toList ++ ['/']) := rfl
      rw [hc]
      simp [isInfixChars, List.isPrefixOf]
    have e1 := hfixed "src/app/auth.py" (by decide) (by decide) hn1 (by decide) (by decide) hr
    have e2 := hfixed "app/auth.py" (by decide) (by decide) hn2 (by decide) (by decide) hr
    have e3 := hfixed "" (by decide) (by decide) hemp (by decide) (by decide) hr
    refine ⟨?_, ?_, ?_⟩
    · unfold pathAllowedWith
      rw [if_neg (by simp), e1]
      decide
    · unfold pathAllowedWith
      rw [if_neg (by simp), e2]
      decide
    · unfold pathAllowedWith
      rw [if_neg (by simp), e3]
      decide

/-- C3 witness: a concrete environment discharging the hypotheses: the
empty allow-list allows everything, the general characterisation holds for
a repo-relative path, and the three concrete verdicts under `["src/"]`. -/
theorem c3_witness :
    pathAllowedWith ⟨"/w/repo", "repo", "/w/repo"⟩ "anything" [] = true
      ∧ pathAllowedWith ⟨"/w/repo", "repo", "/w/repo"⟩ "src/app/auth.py" ["src/"] = true
      ∧ pathAllowedWith ⟨"/w/repo", "repo", "/w/repo"⟩ "app/auth.py" ["src/"] = false
      ∧ pathAllowedWith ⟨"/w/repo", "repo", "/w/repo"⟩ "" ["src/"] = false := by
  have h := c3_path_allowed_with ⟨"/w/repo", "repo", "/w/repo"⟩
  have h3 := h.2.2 (by decide) (by decide) (by decide)
  exact ⟨h.1 [] (Or.inl rfl) "anything", h3.1, h3.2.1, h3.2.2⟩

/-! ## Lemmas about parsing and patch application -/

theorem keysOf_appendHunk (files : ParsedDiff) (p : String) (h : Hunk) :
    keysOf (appendHunk files p h) = keysOf files := by
  unfold keysOf appendHunk
  rw [List.map_map]
  refine List.map_congr_left (fun e _ => ?_)
  by_cases he : e.1 = p <;> simp [he]

theorem keysOf_appendBodyLine (files : ParsedDiff) (cf : Option String) (line : String) :
    keysOf (appendBodyLine files cf line) = keysOf files := by
  unfold keysOf appendBodyLine
  cases cf with
  | none => rfl
  | some f =>
    rw [List.map_map]
    refine List.map_congr_left (fun e _ => ?_)
    by_cases he : e.1 = f <;> simp [he]

theorem keysOf_setdefaultPath (files : ParsedDiff) (p : String)
    (h : (keysOf files).Nodup) : (keysOf (setdefaultPath files p)).Nodup := by
  unfold setdefaultPath
  split
  · exact h
  · rename_i hany
    unfold keysOf
    rw [List.map_append]
    rw [List.nodup_append]
    refine ⟨h, List.nodup_singleton p, ?_⟩
    intro a ha hb
    simp at hb
    subst hb
    simp only [keysOf, List.mem_map] at ha
    obtain ⟨e, he, hep⟩ := ha
    exact hany (List.any_eq_true.mpr ⟨e, he, by simp [hep]⟩)

theorem parseGo_keys_nodup :
    ∀ (n : Nat) (lines : List String), lines.length ≤ n →
      ∀ (files : ParsedDiff) (cf : Option String) (ih : Bool),
      (keysOf files).Nodup → (keysOf (parseGo files cf ih lines)).Nodup := by
  intro n
  induction n with
  | zero =>
    intro lines hl files cf ih h
    have : lines = [] := List.length_eq_zero.mp (Nat.le_zero.mp hl)
    subst this
    exact h
  | succ n ihn =>
    intro lines hl files cf ih h
    cases lines with
    | nil => exact h
    | cons line rest =>
      cases rest with
      | nil =>
        have h0 : ([] : List String).length ≤ n := by simp
        unfold parseGo
        split
        · exact ihn [] h0 _ _ _ (by rw [keysOf_appendBodyLine]; exact h)
        · split
          · exact h
          · split
            · split
              · exact ihn [] h0 _ _ _ h
              · exact ihn [] h0 _ _ _ (by rw [keysOf_appendHunk]; exact h)
            · exact ihn [] h0 _ _ _ h
      | cons next rest2 =>
        have h1 : (next :: rest2).length ≤ n := by
          simp only [List.length_cons] at hl ⊢
          omega
        have h2 : rest2.length ≤ n := by
          simp only [List.length_cons] at hl
          omega
        unfold parseGo
        split
        · exact ihn _ h1 _ _ _ (by rw [keysOf_appendBodyLine]; exact h)
        · split
          · exact ihn _ h2 _ _ _ (keysOf_setdefaultPath _ _ h)
          · split
            · split
              · exact ihn _ h1 _ _ _ h
              · exact ihn _ h1 _ _ _ (by rw [keysOf_appendHunk]; exact h)
            · exact ihn _ h1 _ _ _ h

theorem parseUnifiedDiff_keys_nodup (diffText : String) :
    (keysOf (parseUnifiedDiff diffText)).Nodup :=
  parseGo_keys_nodup (splitlinesPy diffText).length _ le_rfl [] none false
    (by simp [keysOf])

theorem applyDiffLoop_error_of_disallowed (env : Env) (allowed : List String)
    (repo : String → String) :
    ∀ entries : List (String × List Hunk),
      (∃ e ∈ entries, pathAllowedWith env e.1 allowed = false) →
      ∃ msg, (applyDiffLoop env allowed repo entries).2 = .error msg := by
  intro entries
  induction entries with
  | nil => rintro ⟨e, he, _⟩; exact absurd he (by simp)
  | cons hd rest ih =>
    rintro ⟨e, he, hdis⟩
    simp only [applyDiffLoop]
    by_cases hall : pathAllowedWith env hd.1 allowed = true
    · rw [if_pos hall]
      have hrest : ∃ e ∈ rest, pathAllowedWith env e.1 allowed = false := by
        rcases List.mem_cons.mp he with hh | hh
        · subst hh; rw [hall] at hdis; exact absurd hdis (by simp)
        · exact ⟨e, hh, hdis⟩
      obtain ⟨msg, hmsg⟩ := ih hrest
      rcases happ : applyHunksToText (repo hd.1) hd.2 with _ | t
      · exact ⟨"IndexError: list index out of range", by simp⟩
      · refine ⟨msg, ?_⟩
        simp only [hmsg]
        rfl
    · rw [if_neg hall]
      exact ⟨"Path not allowed: " ++ hd.1, by simp⟩

theorem applyDiffLoop_ok_forall₂ (env : Env) (allowed : List String)
    (repo : String → String) :
    ∀ (entries : List (String × List Hunk)) (u : List (String × String)),
      (applyDiffLoop env allowed repo entries).2 = .ok u →
      List.Forall₂ (fun e w => w.1 = e.1 ∧ applyHunksToText (repo e.1) e.2 = some w.2)
        entries u := by
  intro entries
  induction entries with
  | nil =>
    intro u h
    simp only [applyDiffLoop] at h
    cases h
    exact List.Forall₂.nil
  | cons hd rest ih =>
    intro u h
    simp only [applyDiffLoop] at h
    split at h
    · rcases happ : applyHunksToText (repo hd.1) hd.2 with _ | t
      · rw [happ] at h; exact absurd h (by simp)
      · rw [happ] at h
        simp only at h
        rcases hr : (applyDiffLoop env allowed repo rest).2 with msg | u'
        · rw [hr] at h
          exact absurd h (by intro hc; cases hc)
        · rw [hr] at h
          rw [show Except.map (fun u => (hd.1, t) :: u) (Except.ok u')
              = Except.ok ((hd.1, t) :: u') from rfl] at h
          rw [Except.ok.injEq] at h
          subst h
          exact List.Forall₂.cons ⟨rfl, happ⟩ (ih u' hr)
    · exact absurd h (by simp)

theorem applyDiffLoop_no_writes (env : Env) (allowed : List String)
    (repo : String → String) :
    ∀ entries : List (String × List Hunk),
      writesOf (applyDiffLoop env allowed repo entries).1 = [] := by
  intro entries
  induction entries with
  | nil => rfl
  | cons hd rest ih =>
    simp only [applyDiffLoop]
    split
    · rcases happ : applyHunksToText (repo hd.1) hd.2 with _ | t
      · simp [writesOf]
      · simpa [writesOf] using ih
    · simp [writesOf]

theorem forall₂_keys_eq {entries : List (String × List Hunk)} {u : List (String × String)}
    {repo : String → String}
    (h : List.Forall₂ (fun e w => w.1 = e.1 ∧ applyHunksToText (repo e.1) e.2 = some w.2)
      entries u) :
    u.map (fun w => w.1) = entries.map (fun e => e.1) := by
  induction h with
  | nil => rfl
  | cons hrel _ ih => simp [ih, hrel.1]

/-- C2: During patch apply (`_apply_unified_diff` called from
`handle_issue_event`), any file path in the parsed diff that fails the
allow-list check aborts the whole apply with an error, and the handler's
effect trace contains `create_or_update_file` writes only when the whole
apply succeeded, in which case each parsed file is written exactly once
(distinct paths) with its complete new text `_apply_hunks_to_text`
produced — never partially or line-by-line. -/
theorem c2_apply_abort_and_full_writes (env : Env) (allowed : List String)
    (repo : String → String) (diffText : String) :
    ((∃ e ∈ parseUnifiedDiff diffText, pathAllowedWith env e.1 allowed = false) →
      ∃ msg, (applyUnifiedDiffTr env allowed repo diffText).2 = .error msg)
    ∧ (∀ u, (applyUnifiedDiffTr env allowed repo diffText).2 = .ok u →
        List.Forall₂ (fun e w => w.1 = e.1 ∧ applyHunksToText (repo e.1) e.2 = some w.2)
          (parseUnifiedDiff diffText) u
        ∧ (u.map (fun w => w.1)).Nodup)
    ∧ (∀ (maxFiles maxLines : Nat) (branch base prUrl : String) (result : RoundResult),
        result.diff = diffText →
        writesOf (handleAgentResult env allowed maxFiles maxLines repo
            branch base prUrl result).1 = []
        ∨ ∃ u, (applyUnifiedDiffTr env allowed repo diffText).2 = .ok u
            ∧ writesOf (handleAgentResult env allowed maxFiles maxLines repo
                branch base prUrl result).1 = u) := by
  refine ⟨?_, ?_, ?_⟩
  · exact applyDiffLoop_error_of_disallowed env allowed repo (parseUnifiedDiff diffText)
  · intro u hu
    have hf := applyDiffLoop_ok_forall₂ env allowed repo (parseUnifiedDiff diffText) u hu
    refine ⟨hf, ?_⟩
    rw [forall₂_keys_eq hf]
    exact parseUnifiedDiff_keys_nodup diffText
  · intro maxFiles maxLines branch base prUrl result hdiff
    subst hdiff
    unfold handleAgentResult
    split
    · left; rfl
    · split
      · left; rfl
      · split
        · rename_i es msg heq
          left
          have hes : writesOf es = [] := by
            have h1 : es = (applyDiffLoop env allowed repo (parseUnifiedDiff result.diff)).1 := by
              rw [show applyDiffLoop env allowed repo (parseUnifiedDiff result.diff)
                  = applyUnifiedDiffTr env allowed repo result.diff from rfl, heq]
            rw [h1]
            exact applyDiffLoop_no_writes env allowed repo _
          show writesOf (es ++ [Eff.addComment (CommentKind.applyFailed msg)]) = []
          unfold writesOf at hes ⊢
          rw [List.filterMap_append, hes]
          rfl
        · rename_i es updated heq
          right
          refine ⟨updated, ?_, ?_⟩
          · rw [heq]
          · have hes : writesOf es = [] := by
              have h1 : es = (applyDiffLoop env allowed repo (parseUnifiedDiff result.diff)).1 := by
                rw [show applyDiffLoop env allowed repo (parseUnifiedDiff result.diff)
                    = applyUnifiedDiffTr env allowed repo result.diff from rfl, heq]
              rw [h1]
              exact applyDiffLoop_no_writes env allowed repo _
            show writesOf (es ++ [Eff.createBranch branch base]
              ++ updated.map (fun u => Eff.writeFile u.1 u.2)
              ++ [Eff.createPR, Eff.addComment CommentKind.prSummary,
                  Eff.addComment CommentKind.issueNotify]) = updated
            unfold writesOf at hes ⊢
            rw [List.filterMap_append, List.filterMap_append, List.filterMap_append, hes]
            have hu : ∀ l : List (String × String),
                List.filterMap
                  (fun e => match e with | Eff.writeFile p c => some (p, c) | _ => none)
                  (l.map (fun u => Eff.writeFile u.1 u.2)) = l := by
              intro l
              induction l with
              | nil => rfl
              | cons a as iha => simp [List.filterMap_cons, iha]
            simp [hu]

/-- C2 witness: a two-file diff where one path is outside the allow-list
aborts with an error, and the same diff on a permissive allow-list
succeeds with exactly one full write per file. -/
theorem c2_witness :
    (∃ msg,
      (applyUnifiedDiffTr ⟨"/w/repo", "repo", "/w/repo"⟩ ["src/"] (fun _ => "old")
        "--- a/src/a.py\n+++ b/src/a.py\n@@ -1 +1 @@\n-old\n+new\n--- a/evil.py\n+++ b/evil.py\n@@ -1 +1 @@\n-old\n+new").2
        = .error msg)
    ∧ (∀ u, (applyUnifiedDiffTr ⟨"/w/repo", "repo", "/w/repo"⟩ ["src/"] (fun _ => "old")
        "--- a/src/a.py\n+++ b/src/a.py\n@@ -1 +1 @@\n-old\n+new\n--- a/evil.py\n+++ b/evil.py\n@@ -1 +1 @@\n-old\n+new").2 = .ok u →
        List.Forall₂ (fun e w => w.1 = e.1
            ∧ applyHunksToText ((fun _ => "old") e.1) e.2 = some w.2)
          (parseUnifiedDiff
            "--- a/src/a.py\n+++ b/src/a.py\n@@ -1 +1 @@\n-old\n+new\n--- a/evil.py\n+++ b/evil.py\n@@ -1 +1 @@\n-old\n+new") u
        ∧ (u.map (fun w => w.1)).Nodup) := by
  have h := c2_apply_abort_and_full_writes ⟨"/w/repo", "repo", "/w/repo"⟩ ["src/"]
    (fun _ => "old")
    "--- a/src/a.py\n+++ b/src/a.py\n@@ -1 +1 @@\n-old\n+new\n--- a/evil.py\n+++ b/evil.py\n@@ -1 +1 @@\n-old\n+new"
  exact ⟨h.1 (by decide), h.2.1⟩

/-- C8: After every non-`request_context` (that is, `propose_patch`)
result, the orchestrator computes `(files_touched, changed_lines)` via
`_diff_stats` on the diff; when either exceeds its configured maximum it
posts exactly one budget-exceeded comment and returns `None`, with no file
read and no file written. -/
theorem c8_budget_check (env : Env) (allowed : List String) (maxFiles maxLines : Nat)
    (repo : String → String) (branch base prUrl : String) (result : RoundResult)
    (hact : result.action ≠ "request_context")
    (hover : (diffStats result.diff).1 > maxFiles ∨ (diffStats result.diff).2 > maxLines) :
    handleAgentResult env allowed maxFiles maxLines repo branch base prUrl result =
      ([.addComment (.budgetExceeded (diffStats result.diff).1 (diffStats result.diff).2)],
        none)
    ∧ writesOf (handleAgentResult env allowed maxFiles maxLines repo
        branch base prUrl result).1 = []
    ∧ readsOf (handleAgentResult env allowed maxFiles maxLines repo
        branch base prUrl result).1 = [] := by
  have heq : handleAgentResult env allowed maxFiles maxLines repo branch base prUrl result =
      ([.addComment (.budgetExceeded (diffStats result.diff).1 (diffStats result.diff).2)],
        none) := by
    unfold handleAgentResult
    rw [if_neg hact, if_pos hover]
  exact ⟨heq, by rw [heq]; rfl, by rw [heq]; rfl⟩

/-- C8 witness: a `propose_patch` result whose diff touches 5 files
against a configured maximum of 4 is rejected with the budget comment and
triggers no `create_or_update_file` (and no read). -/
theorem c8_witness :
    handleAgentResult ⟨"/w/repo", "repo", "/w/repo"⟩ ["src/"] 4 200 (fun _ => "")
      "agent-fix/1" "main" "http://pr" ⟨"propose_patch", [],
        "--- a/src/a.py\n+++ b/src/a.py\n@@ -1 +1 @@\n-o\n+n\n--- a/src/b.py\n+++ b/src/b.py\n@@ -1 +1 @@\n-o\n+n\n--- a/src/c.py\n+++ b/src/c.py\n@@ -1 +1 @@\n-o\n+n\n--- a/src/d.py\n+++ b/src/d.py\n@@ -1 +1 @@\n-o\n+n\n--- a/src/e.py\n+++ b/src/e.py\n@@ -1 +1 @@\n-o\n+n", ""⟩ =
      ([.addComment (.budgetExceeded 5 10)], none) := by
  have h := c8_budget_check ⟨"/w/repo", "repo", "/w/repo"⟩ ["src/"] 4 200 (fun _ => "")
    "agent-fix/1" "main" "http://pr" ⟨"propose_patch", [],
      "--- a/src/a.py\n+++ b/src/a.py\n@@ -1 +1 @@\n-o\n+n\n--- a/src/b.py\n+++ b/src/b.py\n@@ -1 +1 @@\n-o\n+n\n--- a/src/c.py\n+++ b/src/c.py\n@@ -1 +1 @@\n-o\n+n\n--- a/src/d.py\n+++ b/src/d.py\n@@ -1 +1 @@\n-o\n+n\n--- a/src/e.py\n+++ b/src/e.py\n@@ -1 +1 @@\n-o\n+n", ""⟩
    (by decide) (by decide)
  rw [h.1]
  decide

/-! ## The agent claims -/

/-- C5: `_sanitize_needs` drops every need whose path fails the agent's
allow-list check (dropping the disallowed needs first changes nothing, and
every surviving need's path passes the check — so a need with path
`/etc/passwd` under the non-trivial allow-list `["src/", "app/"]` is
dropped, and `run_two_rounds` hands the fetch callback only sanitized
needs, so it never reaches the snippet fetcher), clamps `around_lines`
into `[10, configuredDefault]` (when the configured default is at least
10), and passes `symbol` and `line` through unchanged. -/
theorem c5_sanitize_needs (allowedPaths : List String) (defaultAround : Int)
    (needs : List NeedD) :
    (∀ sn ∈ sanitizeNeeds allowedPaths defaultAround needs,
        pathAllowedAgent allowedPaths sn.path = true
        ∧ (10 ≤ defaultAround →
            10 ≤ sn.around_lines ∧ sn.around_lines ≤ defaultAround))
    ∧ (sanitizeNeeds allowedPaths defaultAround needs
        = sanitizeNeeds allowedPaths defaultAround
            (needs.filter (fun n => pathAllowedAgent allowedPaths n.path)))
    ∧ (∀ n ∈ needs, pathAllowedAgent allowedPaths n.path = true →
        ∃ sn ∈ sanitizeNeeds allowedPaths defaultAround needs,
          sn.path = n.path ∧ sn.symbol = n.symbol ∧ sn.line = n.line)
    ∧ pathAllowedAgent ["src/", "app/"] "/etc/passwd" = false
    ∧ (∀ sn ∈ sanitizeNeeds ["src/", "app/"] defaultAround needs,
        sn.path ≠ "/etc/passwd") := by
  refine ⟨?_, ?_, ?_, by decide, ?_⟩
  · intro sn hsn
    induction needs with
    | nil => exact absurd hsn (by simp [sanitizeNeeds])
    | cons n rest ihn =>
      simp only [sanitizeNeeds] at hsn
      split at hsn
      · rename_i hall
        rcases List.mem_cons.mp hsn with hh | hh
        · subst hh
          refine ⟨hall, fun hd => ?_⟩
          constructor
          · exact le_max_left _ _
          · exact max_le hd (min_le_right _ _)
        · exact ihn hh
      · exact ihn hsn
  · induction needs with
    | nil => rfl
    | cons n rest ihn =>
      simp only [sanitizeNeeds, List.filter_cons]
      by_cases hall : pathAllowedAgent allowedPaths n.path
      · simp only [hall, if_true, sanitizeNeeds, ihn]
      · simp only [hall, Bool.false_eq_true, if_false, ihn]
  · intro n hn hall
    induction needs with
    | nil => exact absurd hn (by simp)
    | cons m rest ihn =>
      rcases List.mem_cons.mp hn with hh | hh
      · subst hh
        refine ⟨SNeed.mk n.path n.symbol n.line
            (max 10 (min (aroundOrDefault n.around_lines defaultAround) defaultAround)),
          ?_, rfl, rfl, rfl⟩
        simp only [sanitizeNeeds, if_pos hall]
        exact List.mem_cons_self _ _
      · obtain ⟨sn, hsn, hprop⟩ := ihn hh
        refine ⟨sn, ?_, hprop⟩
        simp only [sanitizeNeeds]
        split
        · exact List.mem_cons_of_mem _ hsn
        · exact hsn
  · intro sn hsn
    induction needs with
    | nil => exact absurd hsn (by simp [sanitizeNeeds])
    | cons n rest ihn =>
      simp only [sanitizeNeeds] at hsn
      split at hsn
      · rename_i hall
        rcases List.mem_cons.mp hsn with hh | hh
        · subst hh
          intro hp
          simp only at hp
          rw [hp] at hall
          exact absurd hall (by decide)
        · exact ihn hh
      · exact ihn hsn

/-- C5 witness: a concrete needs list: the `/etc/passwd` need is dropped,
the surviving need keeps its symbol and line, and its `around_lines` is
clamped into `[10, 60]`. -/
theorem c5_witness :
    (∀ sn ∈ sanitizeNeeds ["src/", "app/"] 60
        [⟨"/etc/passwd", none, none, some 50⟩,
         ⟨"src/app/auth.py", some "get_user_profile", some 12, some 500⟩],
      pathAllowedAgent ["src/", "app/"] sn.path = true
        ∧ (10 ≤ (60 : Int) → 10 ≤ sn.around_lines ∧ sn.around_lines ≤ 60))
    ∧ (∀ sn ∈ sanitizeNeeds ["src/", "app/"] 60
        [⟨"/etc/passwd", none, none, some 50⟩,
         ⟨"src/app/auth.py", some "get_user_profile", some 12, some 500⟩],
      sn.path ≠ "/etc/passwd") := by
  have h := c5_sanitize_needs ["src/", "app/"] 60
    [⟨"/etc/passwd", none, none, some 50⟩,
     ⟨"src/app/auth.py", some "get_user_profile", some 12, some 500⟩]
  exact ⟨h.1, h.2.2.2.2⟩

/-- C6: For every model reply whose text, after stripping an optional
surrounding code fence, fails to decode as JSON, or decodes to an object
whose `action` field is neither `"request_context"` nor `"propose_patch"`,
`_call_llm` returns (never raises) a `request_context` dict with an empty
needs list and a non-empty diagnostic reason. -/
theorem c6_malformed_reply_degrades (decode : String → Option Json) (content : String) :
    (decode (stripCodeFences (pyStrip content)) = none →
      callLLM decode content
        = .ok (fallbackDict jsonErrReason (stripCodeFences (pyStrip content))))
    ∧ (∀ fields, decode (stripCodeFences (pyStrip content)) = some (.obj fields) →
        (∀ a, jGet fields "action" = .str a →
          a ≠ "request_context" ∧ a ≠ "propose_patch") →
        callLLM decode content
          = .ok (fallbackDict actionErrReason (stripCodeFences (pyStrip content))))
    ∧ (∀ reason raw, jGet (fallbackFields reason raw) "action" = .str "request_context"
        ∧ jGet (fallbackFields reason raw) "needs" = .arr []
        ∧ jGet (fallbackFields reason raw) "reason" = .str reason)
    ∧ jsonErrReason ≠ "" ∧ actionErrReason ≠ "" := by
  refine ⟨?_, ?_, fun reason raw => ⟨rfl, rfl, rfl⟩, by decide, by decide⟩
  · intro h
    unfold callLLM
    rw [h]
    rfl
  · intro fields h ha
    unfold callLLM
    rw [h]
    simp only [validateDecoded]
    rcases hj : jGet fields "action" with _ | b | m | a | el | fs
    · rfl
    · rfl
    · rfl
    · have := ha a hj
      show (if a = "request_context" ∨ a = "propose_patch" then Except.ok (Json.obj fields)
          else Except.ok (fallbackDict actionErrReason (stripCodeFences (pyStrip content))))
        = Except.ok (fallbackDict actionErrReason (stripCodeFences (pyStrip content)))
      rw [if_neg (by simp [this.1, this.2])]
    · rfl
    · rfl

/-- C6 witness: a reply decoding to `{"action": "nonsense"}` produces the
synthetic request-context result with the diagnostic reason (and an
undecodable reply produces the JSON-error one). -/
theorem c6_witness :
    callLLM (fun _ => some (.obj [("action", .str "nonsense")])) "the model reply"
      = .ok (fallbackDict actionErrReason
          (stripCodeFences (pyStrip "the model reply"))) :=
  (c6_malformed_reply_degrades (fun _ => some (.obj [("action", .str "nonsense")]))
      "the model reply").2.1
    [("action", .str "nonsense")] rfl
    (fun a hj => by
      have : a = "nonsense" := by
        have h := hj
        simp only [jGet, List.find?] at h
        cases h
        rfl
      subst this
      exact ⟨by decide, by decide⟩)

/-- C7: `run_two_rounds` performs at most one escalation: round 1 runs on
the seed snippets; exactly when round 1 returns `request_context` with at
least one sanitized need, the fetch callback is invoked (once, on exactly
the sanitized needs) and its snippets are appended — not merged by path —
to the seed snippets for round 2, whose result is returned whatever its
action; a round-1 `request_context` with zero sanitized needs (and any
non-`request_context` round-1 result) is returned unchanged with no fetch
and no second round. -/
theorem c7_run_two_rounds (run : List SnippetD → RoundResult)
    (allowedPaths : List String) (defaultAround : Int)
    (fetchCallback : List SNeed → List SnippetD) (seedSnippets : List SnippetD) :
    ((run seedSnippets).action ≠ "request_context" →
      runTwoRounds run allowedPaths defaultAround fetchCallback seedSnippets
        = run seedSnippets)
    ∧ ((run seedSnippets).action = "request_context" →
        sanitizeNeeds allowedPaths defaultAround (run seedSnippets).needs = [] →
        runTwoRounds run allowedPaths defaultAround fetchCallback seedSnippets
          = run seedSnippets)
    ∧ ((run seedSnippets).action = "request_context" →
        sanitizeNeeds allowedPaths defaultAround (run seedSnippets).needs ≠ [] →
        runTwoRounds run allowedPaths defaultAround fetchCallback seedSnippets
          = run (seedSnippets ++
              fetchCallback
                (sanitizeNeeds allowedPaths defaultAround (run seedSnippets).needs))) := by
  refine ⟨?_, ?_, ?_⟩
  · intro h
    unfold runTwoRounds
    rw [if_neg h]
  · intro h hn
    unfold runTwoRounds
    rw [if_pos h, if_pos hn]
  · intro h hn
    unfold runTwoRounds
    rw [if_pos h, if_neg hn]

/-- C7 witness: a concrete round function that requests context on the
seed and proposes a patch on the augmented snippets: the final result is
round 2's, on the seed plus the fetched snippets. -/
theorem c7_witness :
    runTwoRounds
      (fun snips =>
        if snips = [] then ⟨"request_context", [⟨"src/a.py", none, some 3, some 20⟩], "", "need more"⟩
        else ⟨"propose_patch", [], "--- a/src/a.py\n+++ b/src/a.py\n", "done"⟩)
      ["src/"] 60
      (fun _ => [⟨"src/a.py", 1, 10, "code"⟩]) []
      = ⟨"propose_patch", [], "--- a/src/a.py\n+++ b/src/a.py\n", "done"⟩ := by
  have h := (c7_run_two_rounds
    (fun snips =>
      if snips = [] then ⟨"request_context", [⟨"src/a.py", none, some 3, some 20⟩], "", "need more"⟩
      else ⟨"propose_patch", [], "--- a/src/a.py\n+++ b/src/a.py\n", "done"⟩)
    ["src/"] 60 (fun _ => [⟨"src/a.py", 1, 10, "code"⟩]) []).2.2 (by decide) (by decide)
  rw [h]
  decide

/-! ## The candidate-detection claim -/

theorem dedupeCapGo_length (limit : Nat) :
    ∀ (xs : List (String × Option Nat)) (seen : List (String × Nat))
      (uniq : List (String × Option Nat)), uniq.length < max 1 limit →
      (dedupeCapGo limit seen uniq xs).length ≤ max 1 limit := by
  intro xs
  induction xs with
  | nil => intro seen uniq h; exact le_of_lt h
  | cons x rest ih =>
    intro seen uniq h
    obtain ⟨p, ln⟩ := x
    simp only [dedupeCapGo]
    split
    · exact ih seen uniq h
    · split
      · rename_i hcap
        simp only [List.length_append, List.length_singleton]
        omega
      · rename_i hcap
        refine ih _ _ ?_
        simp only [List.length_append, List.length_singleton] at hcap ⊢
        omega

theorem dedupeCapGo_nodup (limit : Nat) :
    ∀ (xs : List (String × Option Nat)) (seen : List (String × Nat))
      (uniq : List (String × Option Nat)),
      (uniq.map (fun e => (e.1, e.2.getD 0))).Nodup →
      (∀ k ∈ uniq.map (fun e => (e.1, e.2.getD 0)), k ∈ seen) →
      ((dedupeCapGo limit seen uniq xs).map (fun e => (e.1, e.2.getD 0))).Nodup := by
  intro xs
  induction xs with
  | nil => intro seen uniq h _; exact h
  | cons x rest ih =>
    intro seen uniq h hsub
    obtain ⟨p, ln⟩ := x
    simp only [dedupeCapGo]
    split
    · exact ih seen uniq h hsub
    · rename_i hmem
      have hnodup2 : ((uniq ++ [(p, ln)]).map (fun e => (e.1, e.2.getD 0))).Nodup := by
        rw [List.map_append]
        rw [List.nodup_append]
        refine ⟨h, by simp, ?_⟩
        intro a ha hb
        simp at hb
        subst hb
        exact hmem (hsub _ ha)
      split
      · exact hnodup2
      · refine ih _ _ hnodup2 ?_
        intro k hk
        rw [List.map_append] at hk
        rcases List.mem_append.mp hk with hk | hk
        · exact List.mem_cons_of_mem _ (hsub k hk)
        · simp at hk
          simp [hk]

theorem dedupeCapGo_sublist (limit : Nat) :
    ∀ (xs : List (String × Option Nat)) (seen : List (String × Nat))
      (uniq : List (String × Option Nat)),
      ∃ s, dedupeCapGo limit seen uniq xs = uniq ++ s ∧ s.Sublist xs := by
  intro xs
  induction xs with
  | nil => intro seen uniq; exact ⟨[], by simp [dedupeCapGo]⟩
  | cons x rest ih =>
    intro seen uniq
    obtain ⟨p, ln⟩ := x
    simp only [dedupeCapGo]
    split
    · obtain ⟨s, hs, hsub⟩ := ih seen uniq
      exact ⟨s, hs, hsub.cons _⟩
    · split
      · exact ⟨[(p, ln)], rfl, by simp⟩
      · obtain ⟨s, hs, hsub⟩ := ih ((p, ln.getD 0) :: seen) (uniq ++ [(p, ln)])
        refine ⟨(p, ln) :: s, ?_, hsub.cons₂ _⟩
        rw [hs, List.append_assoc]
        rfl

/-- C9 counterexample: the claim predicts that detection stops at the
first tier it ranks highest — the explicit `Target:` line — so on a body
containing both `Target: src/a.py` and a traceback reference to
`src/b.py` it would yield only `src/a.py`; `parse_stack_text` instead
gathers all tiers, places the traceback hit first, and returns both. -/
theorem c9_counterexample :
    parseStackText ⟨"/w/repo", "repo", "/w/repo"⟩ ["src/"]
        "Target: src/a.py\nFile \"src/b.py\", line 3" none 5
      = [("src/b.py", some 3), ("src/a.py", none)]
    ∧ ¬ parseStackText ⟨"/w/repo", "repo", "/w/repo"⟩ ["src/"]
        "Target: src/a.py\nFile \"src/b.py\", line 3" none 5
      = [("src/a.py", none)] := by
  constructor
  · decide
  · decide

/-- C9 (amended): For every issue text, `parse_stack_text` gathers
candidates from traceback-style `File "<path>", line <n>` references,
then generic `token:line` tokens, then `Target:` lines — all tiers
considered in that order, concatenated — and the resulting candidate list
is de-duplicated by `(path, line-or-0)`, order-preserving (a sublist of
the concatenated tiers), and contains at most `max(1, limit)` entries
(at most 5 at the default limit). -/
theorem c9_detection_properties (env : Env) (allowedGlobal : List String)
    (text : String) (param : Option (List String)) (limit : Nat) :
    (parseStackText env allowedGlobal text param limit).length ≤ max 1 limit
    ∧ ((parseStackText env allowedGlobal text param limit).map
        (fun e => (e.1, e.2.getD 0))).Nodup
    ∧ (parseStackText env allowedGlobal text param limit).Sublist
        (tierFileLine env allowedGlobal (splitlinesPy text)
          ++ tierGeneric env allowedGlobal (splitlinesPy text)
          ++ tierTarget env allowedGlobal text) := by
  unfold parseStackText
  split
  · refine ⟨by simp, by simp, ?_⟩
    exact List.nil_sublist _
  · refine ⟨?_, ?_, ?_⟩
    · exact dedupeCapGo_length limit _ [] [] (by simp)
    · exact dedupeCapGo_nodup limit _ [] [] (by simp) (by simp)
    · obtain ⟨s, hs, hsub⟩ := dedupeCapGo_sublist limit
        (tierFileLine env allowedGlobal (splitlinesPy text)
          ++ tierGeneric env allowedGlobal (splitlinesPy text)
          ++ tierTarget env allowedGlobal text) [] []
      rw [hs]
      simpa using hsub

end TicketWatcher
